import Mathlib

/-!
Verification of the playwrightmd content-extraction and normalization
pipeline (`src/playwrightmd/__init__.py`).

The Python code is shallowly embedded: strings are modelled as `List Char`
(wrapped into `String` at the interfaces), the BeautifulSoup document tree
as an inductive `Node` type inside a `Doc` (the soup's `[document]` root
container), and external collaborators (filesystem, HTTP responses, the
Playwright renderer, the CSS selector engine, the markdownify converter)
as explicit parameters.
-/

/-! ## Character and list utilities -/

/-- ASCII lower-casing of a character, mirroring Python `str.lower` on the
ASCII range used by the extensions and class patterns in the source. -/
def lowerC (c : Char) : Char :=
  if 65 ≤ c.toNat && c.toNat ≤ 90 then Char.ofNat (c.toNat + 32) else c

/-- Lower-case every character of a list. -/
def lowerL (l : List Char) : List Char := l.map lowerC

/-- The characters Python `str.strip` / `str.rstrip` remove by default. -/
def pySpace (c : Char) : Bool :=
  c == ' ' || c == '\t' || c == '\n' || c == '\r' || c.toNat == 11 || c.toNat == 12

/-- Boolean prefix test on character lists. -/
def isPrefixL : List Char → List Char → Bool
  | [], _ => true
  | _ :: _, [] => false
  | a :: as, b :: bs => a == b && isPrefixL as bs

/-- Boolean substring test: Python's `pat in s`. -/
def isInfixL (pat : List Char) : List Char → Bool
  | [] => isPrefixL pat []
  | c :: rest => isPrefixL pat (c :: rest) || isInfixL pat rest

/-- Boolean suffix test: Python's `s.endswith(pat)`. -/
def isSuffixL (pat l : List Char) : Bool := isPrefixL pat.reverse l.reverse

/-- `String`-level prefix test: Python's `s.startswith(pre)`. -/
def startsWithS (pre s : String) : Bool := isPrefixL pre.data s.data

/-! ## Input classifier (`detect_input_type`, lines 28-39) -/

/-- The `InputType` enumeration from the source. -/
inductive InputType where
  | url
  | file
  | stdin
deriving DecidableEq

/-- Embedding of `detect_input_type`.  The filesystem is an external
collaborator, passed as the predicate `fs` standing for
`Path(input_arg).exists()`. -/
def detect_input_type (fs : String → Bool) : Option String → Except String InputType
  | none => .ok .stdin
  | some s =>
    if s = "-" then .ok .stdin
    else if startsWithS "http://" s || startsWithS "https://" s then .ok .url
    else if fs s then .ok .file
    else if s.data.any (fun c => c == '.') && !(startsWithS "/" s) then .ok .url
    else .error ("Cannot determine input type for: " ++ s)

/-! ## Content-kind tests (`is_markdown_file`, `is_markdown_content_type`,
lines 205-215) -/

/-- The markdown extension set from `is_markdown_file`. -/
def markdownExtensions : List String :=
  [".md", ".markdown", ".mdown", ".mkdn", ".mkd", ".mdwn", ".mdtxt", ".mdtext", ".rmd"]

/-- Embedding of `is_markdown_file`: `path.lower().endswith(ext)` for any
extension of the fixed set. -/
def is_markdown_file (path : String) : Bool :=
  markdownExtensions.any (fun ext => isSuffixL ext.data (lowerL path.data))

/-- Embedding of `is_markdown_content_type`: absent header is false,
otherwise any of the three markers occurs in the lower-cased header. -/
def is_markdown_content_type : Option String → Bool
  | none => false
  | some ct =>
    ["markdown", "text/markdown", "text/x-markdown"].any
      (fun ty => isInfixL ty.data (lowerL ct.data))

/-! ## `get_html_content` branches (lines 218-278) and `main`'s output
selection (lines 402-408).

Network and renderer are external: the HTTP response (body and
Content-Type header) and the Playwright-rendered text arrive as
parameters. -/

/-- The `https://` prefixing applied to URL inputs (lines 232-234). -/
def addHttpsScheme (u : String) : String :=
  if startsWithS "http://" u || startsWithS "https://" u then u else "https://" ++ u

/-- Embedding of the `InputType.URL` branch of `get_html_content`
(lines 230-261): `respBody`/`respCT` model the `urllib` response,
`fetched` the Playwright result.  The inner conditional mirrors
lines 243-246 verbatim, including the second (dead) return. -/
def getUrlContent (inputArg respBody : String) (respCT : Option String)
    (fetched : String) (noJs : Bool) : String × Bool :=
  let url := addHttpsScheme inputArg
  if is_markdown_file url then
    if is_markdown_content_type respCT || is_markdown_file url then (respBody, true)
    else (respBody, false)
  else if noJs then (respBody, false)
  else (fetched, false)

/-- Embedding of the `InputType.FILE` branch of `get_html_content`
(lines 263-270): `fileText` is the file's text, `rendered` the
Playwright-rendered result used when JavaScript is enabled. -/
def getFileContent (path fileText rendered : String) (noJs : Bool) : String × Bool :=
  if is_markdown_file path then (fileText, true)
  else if noJs then (fileText, false)
  else (rendered, false)

/-- Embedding of `main`'s output selection (lines 402-408): `conv` is the
HTML-to-Markdown conversion applied when the content is not already
markdown and `--raw` was not given. -/
def mainOutput (raw : Bool) (conv : String → String) (content : String)
    (isMd : Bool) : String :=
  if raw then content else if isMd then content else conv content

/-! ## Document tree model (`clean_html`, lines 124-174)

BeautifulSoup's tree is modelled by `Node`: an element carries its tag
name, its (multi-valued) `class` attribute, its `role` attribute and its
children; the other node kinds relevant to the source are text and
comment nodes.  A `Doc` is the soup object itself: the `[document]`
container whose children are the parsed top-level nodes — `find_all` and
`find` search its descendants, never the container.

`find_all(class_=f)` / `find(class_=f)` are modelled as matching the
elements whose class-attribute list satisfies `f`, the contract the
source's lambdas are written against. -/

inductive Node where
  | elem : String → List String → Option String → List Node → Node
  | text : String → Node
  | comment : String → Node

structure Doc where
  children : List Node

/-- Elements whose tag is in the given list (used for the
`find_all(["script", ...])` calls). -/
def isTagIn (ts : List String) : Node → Bool
  | .elem t _ _ _ => ts.contains t
  | _ => false

/-- `" ".join(c).lower()` over a class-attribute list: the value the
source's class lambdas were evidently written to receive. -/
def joinedClasses (cs : List String) : List Char :=
  lowerL (String.intercalate " " cs).data

/-- Python `" ".join(s)` on a string `s`: a space between every pair of
adjacent characters. -/
def joinChars : List Char → List Char
  | [] => []
  | [c] => [c]
  | c :: rest => c :: ' ' :: joinChars rest

/-- The class lambda of lines 143-147 and 167-169 applied to one string
argument `s`, as BeautifulSoup actually calls it:
`(s and any(pattern in " ".join(s).lower() for pattern in pats)) if s else False`.
Since `s` is a string, `" ".join(s)` intersperses a space between its
characters. -/
def classLambda (pats : List String) (s : List Char) : Bool :=
  !s.isEmpty && pats.any (fun p => isInfixL p.data (lowerL (joinChars s)))

/-- `find_all(class_=f)` matching as BeautifulSoup implements it for the
multi-valued `class` attribute (`SoupStrainer._matches`): the callable is
invoked once per individual class string, then once on the space-joined
class string — never on the list itself.  Elements without a class
attribute get `f(None)`, which the source lambda maps to `False`. -/
def classMatches (pats : List String) : Node → Bool
  | .elem _ cs _ _ =>
    cs.any (fun cls => classLambda pats cls.data)
      || classLambda pats (String.intercalate " " cs).data
  | _ => false

/-- A pattern that starts with two non-space characters (every pattern in
the source's two fixed lists does). -/
def densePat : List Char → Bool
  | a :: b :: _ => !(a == ' ') && !(b == ' ')
  | _ => false

/-- No two adjacent characters are both non-space — the shape of any
character-interspersed `" ".join(s)` string. -/
def spacedL : List Char → Bool
  | [] => true
  | [_] => true
  | a :: b :: r => (a == ' ' || b == ' ') && spacedL (b :: r)

/-- The role lambda of lines 150-151: a role attribute in the given list
(elements without the attribute never match). -/
def roleIn (rs : List String) : Node → Bool
  | .elem _ _ (some r) _ => rs.contains r
  | _ => false

def isComment : Node → Bool
  | .comment _ => true
  | _ => false

/-- Sidebar / navigation class patterns of lines 144-146. -/
def navClassPatterns : List String :=
  ["sidebar", "side-bar", "sidenav", "side-nav", "toc", "table-of-contents",
   "menu", "navigation"]

/-- Main-content class patterns of line 168. -/
def contentClassPatterns : List String :=
  ["content", "article", "post", "entry", "main"]

/-- `soup.find(attrs={"role": "main"})` predicate (line 166). -/
def isRoleMain : Node → Bool
  | .elem _ _ (some r) _ => r == "main"
  | _ => false

/-- `soup.find("div", class_=...)` predicate (lines 167-169), under the
real `find` semantics of `classMatches`. -/
def isContentDiv (n : Node) : Bool :=
  isTagIn ["div"] n && classMatches contentClassPatterns n

/-- The spec's (and claim C5's) wording of the fourth candidate: "a
`<div>` whose class list contains any of {content, article, post, entry,
main}" — the pattern applied to the space-joined class list.  Stated for
comparison with the source-faithful `isContentDiv`. -/
def specContentDiv : Node → Bool
  | .elem t cs _ _ =>
    t == "div"
      && contentClassPatterns.any (fun p => isInfixL p.data (joinedClasses cs))
  | _ => false

mutual
/-- `find_all(p)` followed by `decompose()` (or `extract()`): drop every
node matching `p`, recursing into the children of survivors. -/
def removeIf (p : Node → Bool) : Node → Option Node
  | .elem t c r ch =>
    if p (.elem t c r ch) then none else some (.elem t c r (removeIfList p ch))
  | .text s => if p (.text s) then none else some (.text s)
  | .comment s => if p (.comment s) then none else some (.comment s)

def removeIfList (p : Node → Bool) : List Node → List Node
  | [] => []
  | n :: ns =>
    match removeIf p n with
    | none => removeIfList p ns
    | some m => m :: removeIfList p ns
end

mutual
/-- Pre-order search, as `soup.find`: first matching descendant in
document order. -/
def findN (p : Node → Bool) : Node → Option Node
  | .elem t c r ch =>
    if p (.elem t c r ch) then some (.elem t c r ch) else findL p ch
  | .text s => if p (.text s) then some (.text s) else none
  | .comment s => if p (.comment s) then some (.comment s) else none

def findL (p : Node → Bool) : List Node → Option Node
  | [] => none
  | n :: ns =>
    match findN p n with
    | some m => some m
    | none => findL p ns
end

/-- `soup.find(...)`: search the soup's descendants. -/
def docFind (p : Node → Bool) (d : Doc) : Option Node := findL p d.children

/-- The six removal passes of lines 134-160, in source order. -/
def cleanupChildren (ns : List Node) : List Node :=
  let s1 := removeIfList (isTagIn ["script", "style", "noscript", "iframe", "svg"]) ns
  let s2 := removeIfList (isTagIn ["nav", "aside"]) s1
  let s3 := removeIfList (classMatches navClassPatterns) s2
  let s4 := removeIfList (roleIn ["navigation", "complementary", "menu"]) s3
  let s5 := removeIfList (isTagIn ["header", "footer"]) s4
  removeIfList isComment s5

def cleanedDoc (d : Doc) : Doc := ⟨cleanupChildren d.children⟩

/-- The main-content selection chain of lines 162-172.  The result is
the selected subtree, or — for the final `or soup` fallback — the whole
(cleaned) document's children, matching `str(soup)`. -/
def selectMain (d : Doc) : List Node :=
  match docFind (isTagIn ["main"]) d with
  | some n => [n]
  | none =>
    match docFind (isTagIn ["article"]) d with
    | some n => [n]
    | none =>
      match docFind isRoleMain d with
      | some n => [n]
      | none =>
        match docFind isContentDiv d with
        | some n => [n]
        | none =>
          match docFind (isTagIn ["body"]) d with
          | some n => [n]
          | none => d.children

/-- The selector-free branch of `clean_html` (lines 133-172). -/
def extractNoSelector (d : Doc) : List Node := selectMain (cleanedDoc d)

/-- Embedding of `clean_html` (lines 124-174).  The CSS selector engine
(soupsieve's `select_one`) is an external collaborator, passed as `so`;
it queries the unmodified document. -/
def clean_html (so : String → Doc → Option Node) (d : Doc) :
    Option String → Except String (List Node)
  | some sel =>
    match so sel d with
    | some n => .ok [n]
    | none => .error ("Selector " ++ sel ++ " not found in page")
  | none => .ok (extractNoSelector d)

/-! ## Whitespace normalizer (`html_to_markdown`, lines 190-202)

The markdownify conversion itself is external; the normalizer is the
whitespace cleanup applied to its output. -/

/-- Python `"...".split("\n")`. -/
def splitNl : List Char → List (List Char)
  | [] => [[]]
  | c :: r =>
    if c == '\n' then [] :: splitNl r
    else
      match splitNl r with
      | [] => [[c]]
      | l :: ls => (c :: l) :: ls

/-- Python `"\n".join(...)`. -/
def joinNl : List (List Char) → List Char
  | [] => []
  | [l] => l
  | l :: ls => l ++ '\n' :: joinNl ls

/-- Python `line.rstrip()`. -/
def rstripL (l : List Char) : List Char := (l.reverse.dropWhile pySpace).reverse

/-- Python `line.lstrip()`. -/
def lstripL (l : List Char) : List Char := l.dropWhile pySpace

/-- Python `s.strip()`. -/
def stripL (l : List Char) : List Char := rstripL (lstripL l)

/-- Python `not line.strip()`: the line contains only whitespace. -/
def isBlankL (l : List Char) : Bool := l.all pySpace

/-- The loop of lines 193-200: skip a blank line whose predecessor was
blank, right-strip and keep every other line. -/
def cleanLines : Bool → List (List Char) → List (List Char)
  | _, [] => []
  | prevEmpty, l :: ls =>
    if isBlankL l && prevEmpty then cleanLines prevEmpty ls
    else rstripL l :: cleanLines (isBlankL l) ls

/-- The whole normalizer, line 202 included:
`"\n".join(cleaned_lines).strip() + "\n"`. -/
def normalizeL (s : List Char) : List Char :=
  stripL (joinNl (cleanLines false (splitNl s))) ++ ['\n']

/-- `String`-level wrapper of the normalizer. -/
def normalizeWhitespace (s : String) : String := ⟨normalizeL s.data⟩

/-! ### The normalizer contract as the spec words it (§4.4)

These definitions follow the spec's sentence, step by step, to be compared
with the source-embedded `normalizeL`. -/

/-- Spec step "collapse any run of two or more consecutive blank lines
into a single blank line": of each run of consecutive blank lines, one
representative survives. -/
def collapseRuns : List (List Char) → List (List Char)
  | [] => []
  | [l] => [l]
  | l :: l' :: ls =>
    if isBlankL l && isBlankL l' then collapseRuns (l' :: ls)
    else l :: collapseRuns (l' :: ls)

/-- Spec step "strip trailing blank lines from the whole document". -/
def dropEndBlanks : List (List Char) → List (List Char)
  | [] => []
  | l :: ls =>
    match dropEndBlanks ls with
    | [] => if isBlankL l then [] else [l]
    | r => l :: r

/-- Spec step "strip leading/trailing blank lines from the whole
document". -/
def stripBlankEdges (ls : List (List Char)) : List (List Char) :=
  dropEndBlanks (ls.dropWhile isBlankL)

/-- The normalizer contract exactly as the spec words it: collapse blank
runs, right-trim every surviving line, strip leading/trailing blank
lines, end with exactly one trailing line break. -/
def specNormalizeL (s : List Char) : List Char :=
  joinNl (stripBlankEdges ((collapseRuns (splitNl s)).map rstripL)) ++ ['\n']

/-- The amended normalizer contract: as `specNormalizeL`, but the final
pass additionally strips all leading and trailing whitespace of the
joined document (not only blank lines), as the source's `.strip()`
does. -/
def amendedNormalizeL (s : List Char) : List Char :=
  stripL (joinNl (stripBlankEdges ((collapseRuns (splitNl s)).map rstripL))) ++ ['\n']

/-! ## Link truncator (spec §4.5)

The tests (`tests/test_main_function.py`) import and exercise
`truncate_markdown_links`, but the function's implementation is not part
of the source tree here; it is modelled from the spec. -/

/-- A character that may appear in the URL part of an inline link:
anything but the closing parenthesis and the space that separates the
URL from a title. -/
def urlChar (c : Char) : Bool := !(c == ')') && !(c == ' ')

/-- Spec truncation step: a URL whose display length exceeds the maximum
becomes its first `max_length - 1` characters followed by a single
ellipsis character; shorter URLs are untouched. -/
def truncUrl (m : Nat) (u : List Char) : List Char :=
  if m < u.length then u.take (m - 1) ++ ['…'] else u

/-- Serialization of one inline link, `[text](url)` or
`[text](url "title")`. -/
def renderLink (txt u : List Char) (ttl : Option (List Char)) : List Char :=
  '[' :: txt ++ ']' :: '(' :: u ++
    (match ttl with
     | none => [')']
     | some t => ' ' :: '"' :: t ++ ['"', ')'])

/-- Modelled from the spec: the inline-link pattern matcher of the link
truncator (`truncate_markdown_links`), whose implementation is absent
from the source tree (only its tests remain).  Given the text following
a `[`, it recognises `text](url)` and `text](url "title")` and returns
the link parts together with the unconsumed remainder. -/
def parseLink (cs : List Char) :
    Option (List Char × List Char × Option (List Char) ×
      {r : List Char // r.length ≤ cs.length}) :=
  let txt := cs.takeWhile (fun c => !(c == ']'))
  match h1 : cs.dropWhile (fun c => !(c == ']')) with
  | ']' :: '(' :: r2 =>
    let u := r2.takeWhile urlChar
    match h3 : r2.dropWhile urlChar with
    | ')' :: r4 =>
      if u.isEmpty then none
      else
        some (txt, u, none, ⟨r4, by
          have hd1 : (cs.dropWhile (fun c => !(c == ']'))).length ≤ cs.length :=
            (List.dropWhile_sublist _).length_le
          have hd2 : (r2.dropWhile urlChar).length ≤ r2.length :=
            (List.dropWhile_sublist _).length_le
          rw [h1] at hd1
          rw [h3] at hd2
          simp only [List.length_cons] at hd1 hd2
          omega⟩)
    | ' ' :: '"' :: r5 =>
      if u.isEmpty then none
      else
        let ttl := r5.takeWhile (fun c => !(c == '"'))
        match h6 : r5.dropWhile (fun c => !(c == '"')) with
        | '"' :: ')' :: r7 =>
          some (txt, u, some ttl, ⟨r7, by
            have hd1 : (cs.dropWhile (fun c => !(c == ']'))).length ≤ cs.length :=
              (List.dropWhile_sublist _).length_le
            have hd2 : (r2.dropWhile urlChar).length ≤ r2.length :=
              (List.dropWhile_sublist _).length_le
            have hd3 : (r5.dropWhile (fun c => !(c == '"'))).length ≤ r5.length :=
              (List.dropWhile_sublist _).length_le
            rw [h1] at hd1
            rw [h3] at hd2
            rw [h6] at hd3
            simp only [List.length_cons] at hd1 hd2 hd3
            omega⟩)
        | _ => none
    | _ => none
  | _ => none

/-- Modelled from the spec: the scanning loop of `truncate_markdown_links`
(absent from the source tree).  Every inline link found in the text gets
its URL truncated by `truncUrl`; all other characters pass through. -/
def scanLinks (m : Nat) : List Char → List Char
  | [] => []
  | c :: rest =>
    if c == '[' then
      match parseLink rest with
      | some (txt, u, ttl, rest2) =>
        renderLink txt (truncUrl m u) ttl ++ scanLinks m rest2.val
      | none => c :: scanLinks m rest
    else c :: scanLinks m rest
termination_by cs => cs.length
decreasing_by
  · exact Nat.lt_succ_of_le rest2.property
  · simp
  · simp

/-- Modelled from the spec: `truncate_markdown_links` (absent from the
source tree; the tests call it with a `max_length` defaulting to 42). -/
def truncate_markdown_links (m : Nat) (s : String) : String := ⟨scanLinks m s.data⟩

/-! ### Abstract link documents

A Markdown document is presented as a list of segments — plain text or
inline links — to state what the truncator does to every link of a
document. -/

inductive Seg where
  | raw : List Char → Seg
  | link : List Char → List Char → Option (List Char) → Seg

/-- Serialize a segment. -/
def renderSeg : Seg → List Char
  | .raw s => s
  | .link txt u ttl => renderLink txt u ttl

/-- Serialize a document. -/
def renderDocSegs (segs : List Seg) : List Char := (segs.map renderSeg).flatten

/-- The spec's per-link transform lifted to segments: only URLs change,
and only when longer than the maximum. -/
def truncSeg (m : Nat) : Seg → Seg
  | .raw s => .raw s
  | .link txt u ttl => .link txt (truncUrl m u) ttl

/-- Well-formed segment: raw text holds no `[`; a link's text holds no
`]`, its URL is non-empty and free of `)` and spaces, and its title
holds no `"`. -/
def wfSeg : Seg → Bool
  | .raw s => s.all (fun c => !(c == '['))
  | .link txt u ttl =>
    txt.all (fun c => !(c == ']')) && !u.isEmpty && u.all urlChar &&
      (match ttl with
       | none => true
       | some t => t.all (fun c => !(c == '"')))

/-- Well-formed document. -/
def wfDoc (segs : List Seg) : Bool := segs.all wfSeg

/-! ## Predicates and fixtures used in the statements -/

mutual
/-- `q` holds at a node and, hereditarily, at all its descendants. -/
def allN (q : Node → Bool) : Node → Bool
  | .elem t c r ch => q (.elem t c r ch) && allL q ch
  | .text s => q (.text s)
  | .comment s => q (.comment s)

def allL (q : Node → Bool) : List Node → Bool
  | [] => true
  | n :: ns => allN q n && allL q ns
end

/-- A node the selector-free extractor must never emit: one of the five
reader-invisible tags, or a comment. -/
def extractorBanned (n : Node) : Bool :=
  isTagIn ["script", "style", "noscript", "iframe", "svg"] n || isComment n

/-- No two consecutive lines are both blank. -/
def noAdjBlank : List (List Char) → Bool
  | [] => true
  | [_] => true
  | l :: l' :: ls => (!(isBlankL l && isBlankL l')) && noAdjBlank (l' :: ls)

/-- The first line, when there is one, is not blank. -/
def headNonBlank : List (List Char) → Bool
  | [] => true
  | l :: _ => !(isBlankL l)

/-- Left-strip the first line of a line list. -/
def lstripHead : List (List Char) → List (List Char)
  | [] => []
  | l :: ls => lstripL l :: ls

/-- A model instantiation of the external CSS selector engine, covering
bare tag-name selectors: `select_one("div")` returns the first `div` in
document order. -/
def tagSelect (sel : String) (d : Doc) : Option Node := docFind (isTagIn [sel]) d

/-- Witness fixture: a page whose `main` element carries the content. -/
def exDocMain : Doc :=
  ⟨[Node.elem "html" [] none
      [Node.elem "body" [] none
        [Node.elem "div" ["wrapper"] none [Node.text "side"],
         Node.elem "main" [] none [Node.text "hello"]]]]⟩

/-- Counterexample fixture: a `div` carrying the class `content`. -/
def exDivContent : Node :=
  Node.elem "div" ["content"] none [Node.text "hello"]

/-- Counterexample fixture: a body whose only child is `exDivContent`. -/
def exBodyContent : Node :=
  Node.elem "body" [] none [exDivContent]

/-- Counterexample fixture: a page with no `main`, no `article` and no
role=main, only the content-classed `div` inside the body. -/
def exDocContentDiv : Doc :=
  ⟨[Node.elem "html" [] none [exBodyContent]]⟩

/-- Witness fixture: a `div` subtree that still contains a script, a
style, a nav, a header, a footer and a comment. -/
def exSubDiv : Node :=
  Node.elem "div" ["content"] none
    [Node.elem "script" [] none [Node.text "var x = 1"],
     Node.elem "style" [] none [Node.text "p: red"],
     Node.elem "nav" [] none [Node.text "menu"],
     Node.elem "header" [] none [Node.text "head"],
     Node.elem "footer" [] none [Node.text "foot"],
     Node.comment "hidden",
     Node.text "body text"]

/-- Witness fixture: a page holding `exSubDiv`. -/
def exDocDiv : Doc :=
  ⟨[Node.elem "html" [] none [Node.elem "body" [] none [exSubDiv]]]⟩

/-- Witness fixture for the truncator: the spec §8 example link. -/
def exSegs : List Seg :=
  [Seg.link "Link".data
    "https://example.com/very/long/path/to/some/resource?param=value".data none]

/-! ## General lemmas about the character-list utilities -/

theorem isPrefixL_iff (p l : List Char) : isPrefixL p l = true ↔ p <+: l := by
  induction p generalizing l with
  | nil => simp [isPrefixL]
  | cons a as ih =>
    cases l with
    | nil => simp [isPrefixL]
    | cons b bs =>
      simp only [isPrefixL, Bool.and_eq_true, beq_iff_eq, ih, List.cons_prefix_cons]

theorem isSuffixL_iff (p l : List Char) : isSuffixL p l = true ↔ p <:+ l := by
  rw [isSuffixL, isPrefixL_iff, List.reverse_prefix]

theorem isSuffixL_append (p a l : List Char) (h : isSuffixL p l = true) :
    isSuffixL p (a ++ l) = true := by
  rw [isSuffixL_iff] at h ⊢
  exact h.trans (List.suffix_append a l)

theorem is_markdown_file_append (pre u : String)
    (h : is_markdown_file u = true) : is_markdown_file (pre ++ u) = true := by
  rw [is_markdown_file, List.any_eq_true] at h ⊢
  obtain ⟨ext, hmem, hsuf⟩ := h
  refine ⟨ext, hmem, ?_⟩
  have : (pre ++ u).data = pre.data ++ u.data := String.data_append pre u
  rw [this, lowerL, List.map_append]
  exact isSuffixL_append _ _ _ hsuf

theorem is_markdown_file_addHttpsScheme (u : String)
    (h : is_markdown_file u = true) : is_markdown_file (addHttpsScheme u) = true := by
  rw [addHttpsScheme]
  split
  · exact h
  · exact is_markdown_file_append "https://" u h

/-! ## Claim C3: the input classifier -/

/-- Claim C3: `detect_input_type` decides the input kind by these rules in
this exact order: absent or `"-"` gives STDIN; an `http://`/`https://`
prefix gives URL; an existing path gives FILE; otherwise a string with a
dot not starting with `/` gives URL; everything else is an unresolvable
input error.  In particular a relative dotted filename that does not
exist on disk is classified URL. -/
theorem claim_C3 (fs : String → Bool) (s : String) :
    detect_input_type fs none = .ok .stdin
    ∧ detect_input_type fs (some "-") = .ok .stdin
    ∧ ((startsWithS "http://" s || startsWithS "https://" s) = true →
        detect_input_type fs (some s) = .ok .url)
    ∧ (s ≠ "-" → (startsWithS "http://" s || startsWithS "https://" s) = false →
        fs s = true → detect_input_type fs (some s) = .ok .file)
    ∧ (s ≠ "-" → (startsWithS "http://" s || startsWithS "https://" s) = false →
        fs s = false → s.data.any (fun c => c == '.') = true →
        startsWithS "/" s = false → detect_input_type fs (some s) = .ok .url)
    ∧ (s ≠ "-" → (startsWithS "http://" s || startsWithS "https://" s) = false →
        fs s = false →
        (s.data.any (fun c => c == '.') = false ∨ startsWithS "/" s = true) →
        detect_input_type fs (some s) =
          .error ("Cannot determine input type for: " ++ s)) := by
  refine ⟨rfl, by simp [detect_input_type], ?_, ?_, ?_, ?_⟩
  · intro h
    have hs : s ≠ "-" := by
      intro he
      subst he
      simp [startsWithS, isPrefixL] at h
    simp [detect_input_type, hs, h]
  · intro hs h hf
    simp [detect_input_type, hs, h, hf]
  · intro hs h hf hdot hsl
    simp [detect_input_type, hs, h, hf, hdot, hsl]
  · intro hs h hf hrest
    rcases hrest with hdot | hsl
    · simp [detect_input_type, hs, h, hf, hdot]
    · simp [detect_input_type, hs, h, hf, hsl]

/-- Witness for C3: the non-existing dotted relative name `notes.txt` is
classified URL. -/
theorem claim_C3_witness :
    detect_input_type (fun _ => false) (some "notes.txt") = .ok .url :=
  (claim_C3 (fun _ => false) "notes.txt").2.2.2.2.1 (by decide) (by decide) rfl
    (by decide) (by decide)

/-! ## Claim C10: markdown URLs always return is_markdown = True -/

/-- Claim C10: for a URL input whose name has a known Markdown extension,
`get_html_content` returns the response body with `is_markdown = True`,
whatever the response's Content-Type header says: the guard already
holds, so the disjunction of line 244 is always true and the
`is_markdown = False` return of line 246 is unreachable. -/
theorem claim_C10 (inputArg respBody : String) (respCT : Option String)
    (fetched : String) (noJs : Bool) (h : is_markdown_file inputArg = true) :
    getUrlContent inputArg respBody respCT fetched noJs = (respBody, true) := by
  have h' : is_markdown_file (addHttpsScheme inputArg) = true :=
    is_markdown_file_addHttpsScheme inputArg h
  simp [getUrlContent, h']

/-- Witness for C10: a scheme-less markdown URL with an HTML Content-Type
still comes back flagged as markdown. -/
theorem claim_C10_witness :
    getUrlContent "example.com/README.md" "body" (some "text/html") "fetched" false
      = ("body", true) :=
  claim_C10 "example.com/README.md" "body" (some "text/html") "fetched" false
    (by decide)

/-! ## Claim C2: generic-text files are not passed through by this code -/

/-- Claim C2 (refuted by the code; the code contradicts its own tests):
for the local file `data.json`, `get_html_content` returns
`is_markdown = False` — there is no generic-text extension check in the
FILE branch (lines 263-270) — and therefore `main` (lines 402-408) hands
the JSON text to the HTML-to-Markdown converter instead of passing it
through. -/
theorem claim_C2_code_bug (fileText rendered : String) (conv : String → String) :
    getFileContent "data.json" fileText rendered true = (fileText, false)
    ∧ mainOutput false conv fileText
        (getFileContent "data.json" fileText rendered true).2 = conv fileText := by
  have h : is_markdown_file "data.json" = false := by decide
  constructor
  · simp [getFileContent, h]
  · simp [getFileContent, mainOutput, h]

/-! ## Lemmas about the document-tree operations -/

/-- The source's removal predicates look only at a node's tag and
attributes, never at its children. -/
def childBlind (p : Node → Bool) : Prop :=
  ∀ t c r ch ch', p (.elem t c r ch) = p (.elem t c r ch')

theorem childBlind_isTagIn (ts : List String) : childBlind (isTagIn ts) := by
  intro t c r ch ch'
  simp [isTagIn]

theorem childBlind_classMatches (ps : List String) : childBlind (classMatches ps) := by
  intro t c r ch ch'
  simp [classMatches]

theorem childBlind_roleIn (rs : List String) : childBlind (roleIn rs) := by
  intro t c r ch ch'
  cases r <;> simp [roleIn]

theorem childBlind_isComment : childBlind isComment := by
  intro t c r ch ch'
  simp [isComment]

theorem childBlind_not (p : Node → Bool) (hp : childBlind p) :
    childBlind (fun n => !(p n)) := by
  intro t c r ch ch'
  simp [hp t c r ch ch']

mutual
/-- After a removal pass, no surviving node matches the removal
predicate. -/
theorem removeIf_keeps (p : Node → Bool) (hp : childBlind p) (n m : Node)
    (h : removeIf p n = some m) : allN (fun x => !(p x)) m = true := by
  cases n with
  | elem t c r ch =>
    rw [removeIf] at h
    by_cases hc : p (.elem t c r ch) = true
    · simp [hc] at h
    · simp only [Bool.not_eq_true] at hc
      simp only [hc, Bool.false_eq_true, if_false, Option.some.injEq] at h
      subst h
      rw [allN, Bool.and_eq_true]
      refine ⟨?_, removeIfList_keeps p hp ch⟩
      rw [hp t c r _ ch, hc]
      rfl
  | text s =>
    rw [removeIf] at h
    by_cases hc : p (.text s) = true
    · simp [hc] at h
    · simp only [Bool.not_eq_true] at hc
      simp only [hc, Bool.false_eq_true, if_false, Option.some.injEq] at h
      subst h
      simp [allN, hc]
  | comment s =>
    rw [removeIf] at h
    by_cases hc : p (.comment s) = true
    · simp [hc] at h
    · simp only [Bool.not_eq_true] at hc
      simp only [hc, Bool.false_eq_true, if_false, Option.some.injEq] at h
      subst h
      simp [allN, hc]

theorem removeIfList_keeps (p : Node → Bool) (hp : childBlind p) (ns : List Node) :
    allL (fun x => !(p x)) (removeIfList p ns) = true := by
  cases ns with
  | nil => rw [removeIfList, allL]
  | cons n ns =>
    rw [removeIfList]
    cases hrem : removeIf p n with
    | none => exact removeIfList_keeps p hp ns
    | some m =>
      rw [allL, Bool.and_eq_true]
      exact ⟨removeIf_keeps p hp n m hrem, removeIfList_keeps p hp ns⟩
end

mutual
/-- Removal passes only remove: a hereditary property of the tree
survives any later pass. -/
theorem removeIf_preserves (q p : Node → Bool) (hq : childBlind q) (n m : Node)
    (h : removeIf p n = some m) (ha : allN q n = true) : allN q m = true := by
  cases n with
  | elem t c r ch =>
    rw [removeIf] at h
    by_cases hc : p (.elem t c r ch) = true
    · simp [hc] at h
    · simp only [Bool.not_eq_true] at hc
      simp only [hc, Bool.false_eq_true, if_false, Option.some.injEq] at h
      subst h
      rw [allN, Bool.and_eq_true] at ha ⊢
      refine ⟨?_, removeIfList_preserves q p hq ch ha.2⟩
      rw [hq t c r _ ch]
      exact ha.1
  | text s =>
    rw [removeIf] at h
    by_cases hc : p (.text s) = true
    · simp [hc] at h
    · simp only [Bool.not_eq_true] at hc
      simp only [hc, Bool.false_eq_true, if_false, Option.some.injEq] at h
      subst h
      exact ha
  | comment s =>
    rw [removeIf] at h
    by_cases hc : p (.comment s) = true
    · simp [hc] at h
    · simp only [Bool.not_eq_true] at hc
      simp only [hc, Bool.false_eq_true, if_false, Option.some.injEq] at h
      subst h
      exact ha

theorem removeIfList_preserves (q p : Node → Bool) (hq : childBlind q)
    (ns : List Node) (ha : allL q ns = true) : allL q (removeIfList p ns) = true := by
  cases ns with
  | nil => rw [removeIfList, allL]
  | cons n ns =>
    rw [allL, Bool.and_eq_true] at ha
    rw [removeIfList]
    cases hrem : removeIf p n with
    | none => exact removeIfList_preserves q p hq ns ha.2
    | some m =>
      rw [allL, Bool.and_eq_true]
      exact ⟨removeIf_preserves q p hq n m hrem ha.1,
        removeIfList_preserves q p hq ns ha.2⟩
end

mutual
/-- A hereditary property holds at whatever `find` returns. -/
theorem findN_all (q p : Node → Bool) (n m : Node) (h : findN p n = some m)
    (ha : allN q n = true) : allN q m = true := by
  cases n with
  | elem t c r ch =>
    rw [findN] at h
    by_cases hc : p (.elem t c r ch) = true
    · simp only [hc, if_true, Option.some.injEq] at h
      subst h
      exact ha
    · simp only [hc, if_false] at h
      rw [allN, Bool.and_eq_true] at ha
      exact findL_all q p ch m h ha.2
  | text s =>
    rw [findN] at h
    by_cases hc : p (.text s) = true
    · simp only [hc, if_true, Option.some.injEq] at h
      subst h
      exact ha
    · simp [hc] at h
  | comment s =>
    rw [findN] at h
    by_cases hc : p (.comment s) = true
    · simp only [hc, if_true, Option.some.injEq] at h
      subst h
      exact ha
    · simp [hc] at h

theorem findL_all (q p : Node → Bool) (ns : List Node) (m : Node)
    (h : findL p ns = some m) (ha : allL q ns = true) : allN q m = true := by
  cases ns with
  | nil => simp [findL] at h
  | cons n ns =>
    rw [allL, Bool.and_eq_true] at ha
    rw [findL] at h
    cases hfind : findN p n with
    | some m' =>
      rw [hfind] at h
      cases h
      exact findN_all q p n m hfind ha.1
    | none =>
      rw [hfind] at h
      exact findL_all q p ns m h ha.2
end

mutual
/-- Hereditary properties combine pointwise. -/
theorem allN_and (q r : Node → Bool) (n : Node) :
    allN (fun x => q x && r x) n = (allN q n && allN r n) := by
  cases n with
  | elem t c rr ch =>
    rw [allN, allN, allN, allL_and q r ch]
    simp only [Bool.and_assoc, Bool.and_comm, Bool.and_left_comm]
  | text s => rfl
  | comment s => rfl

theorem allL_and (q r : Node → Bool) (ns : List Node) :
    allL (fun x => q x && r x) ns = (allL q ns && allL r ns) := by
  cases ns with
  | nil => rfl
  | cons n ns =>
    rw [allL, allL, allL, allN_and q r n, allL_and q r ns]
    simp only [Bool.and_assoc, Bool.and_comm, Bool.and_left_comm]
end

/-- The cleanup passes leave no script/style/noscript/iframe/svg element
and no comment anywhere in the tree. -/
theorem cleanupChildren_clean (ns : List Node) :
    allL (fun n => !(extractorBanned n)) (cleanupChildren ns) = true := by
  have hq : childBlind (fun n => !(isTagIn ["script", "style", "noscript", "iframe", "svg"] n)) :=
    childBlind_not _ (childBlind_isTagIn _)
  have h1 : allL (fun n => !(isTagIn ["script", "style", "noscript", "iframe", "svg"] n))
      (removeIfList (isTagIn ["script", "style", "noscript", "iframe", "svg"]) ns) = true :=
    removeIfList_keeps _ (childBlind_isTagIn _) ns
  rw [cleanupChildren]
  have h2 := removeIfList_preserves _ (isTagIn ["nav", "aside"]) hq _ h1
  have h3 := removeIfList_preserves _ (classMatches navClassPatterns) hq _ h2
  have h4 := removeIfList_preserves _ (roleIn ["navigation", "complementary", "menu"]) hq _ h3
  have h5 := removeIfList_preserves _ (isTagIn ["header", "footer"]) hq _ h4
  have h6 := removeIfList_preserves _ isComment hq _ h5
  have hc : allL (fun n => !(isComment n)) (removeIfList isComment
      (removeIfList (isTagIn ["header", "footer"])
        (removeIfList (roleIn ["navigation", "complementary", "menu"])
          (removeIfList (classMatches navClassPatterns)
            (removeIfList (isTagIn ["nav", "aside"])
              (removeIfList (isTagIn ["script", "style", "noscript", "iframe", "svg"]) ns)))))) = true :=
    removeIfList_keeps _ childBlind_isComment _
  have hfun : (fun n => !(extractorBanned n))
      = (fun n => (!(isTagIn ["script", "style", "noscript", "iframe", "svg"] n))
          && (!(isComment n))) := by
    funext n
    simp [extractorBanned]
  rw [hfun, allL_and, h6, hc]
  rfl

/-- A hereditary property of the cleaned document holds of whatever the
main-content selection chain picks. -/
theorem selectMain_all (q : Node → Bool) (d : Doc) (hq : allL q d.children = true) :
    allL q (selectMain d) = true := by
  rw [selectMain]
  cases h1 : docFind (isTagIn ["main"]) d with
  | some n =>
    simpa [allL] using findL_all q _ d.children n h1 hq
  | none =>
    cases h2 : docFind (isTagIn ["article"]) d with
    | some n =>
      simpa [allL] using findL_all q _ d.children n h2 hq
    | none =>
      cases h3 : docFind isRoleMain d with
      | some n =>
        simpa [allL] using findL_all q _ d.children n h3 hq
      | none =>
        cases h4 : docFind isContentDiv d with
        | some n =>
          simpa [allL] using findL_all q _ d.children n h4 hq
        | none =>
          cases h5 : docFind (isTagIn ["body"]) d with
          | some n =>
            simpa [allL] using findL_all q _ d.children n h5 hq
          | none =>
            exact hq

/-! ## Claim C4: the selector-free extractor removes invisible content -/

/-- Claim C4: with no explicit selector, the extractor's output contains
no script, style, noscript, iframe or svg element and no comment node,
for every input document. -/
theorem claim_C4 (d : Doc) :
    allL (fun n => !(extractorBanned n)) (extractNoSelector d) = true :=
  selectMain_all _ (cleanedDoc d) (cleanupChildren_clean d.children)

/-! ## Claim C5: the main-content priority order

BeautifulSoup hands the `class_` callable each class string and the
space-joined class string, never the class list, so the source lambda's
`" ".join(c)` intersperses a space between every two characters and none
of the multi-character patterns can ever occur: the class-based rules
match nothing in the program. -/

theorem spacedL_tail (a : Char) (l : List Char) (h : spacedL (a :: l) = true) :
    spacedL l = true := by
  cases l with
  | nil => rfl
  | cons b r =>
    rw [spacedL, Bool.and_eq_true] at h
    exact h.2

theorem spacedL_cons_space (l : List Char) (h : spacedL l = true) :
    spacedL (' ' :: l) = true := by
  cases l with
  | nil => rfl
  | cons b r =>
    rw [spacedL, Bool.and_eq_true]
    exact ⟨by simp, h⟩

theorem spacedL_lower_joinChars (s : List Char) :
    spacedL (lowerL (joinChars s)) = true := by
  induction s with
  | nil => rfl
  | cons c rest ih =>
    cases rest with
    | nil => rfl
    | cons d r =>
      rw [joinChars, lowerL, List.map_cons, List.map_cons,
        show lowerC ' ' = ' ' by decide, spacedL, Bool.and_eq_true]
      refine ⟨by simp, ?_⟩
      exact spacedL_cons_space _ ih
      simp

theorem isInfixL_spaced_false (pat l : List Char) (hp : densePat pat = true)
    (hl : spacedL l = true) : isInfixL pat l = false := by
  induction l with
  | nil =>
    cases pat with
    | nil => simp [densePat] at hp
    | cons a rest =>
      cases rest with
      | nil => simp [densePat] at hp
      | cons b r => rfl
  | cons c ls ih =>
    cases pat with
    | nil => simp [densePat] at hp
    | cons a rest =>
      cases rest with
      | nil => simp [densePat] at hp
      | cons b r =>
        rw [densePat, Bool.and_eq_true] at hp
        have h2 : isInfixL (a :: b :: r) ls = false := ih (spacedL_tail c ls hl)
        have h1 : isPrefixL (a :: b :: r) (c :: ls) = false := by
          cases ls with
          | nil => simp [isPrefixL]
          | cons d ls2 =>
            by_cases hac : (a == c) = true
            · by_cases hbd : (b == d) = true
              · exfalso
                rw [spacedL, Bool.and_eq_true] at hl
                have hca : c = a := (beq_iff_eq.1 hac).symm
                have hdb : d = b := (beq_iff_eq.1 hbd).symm
                rcases Bool.or_eq_true_iff.1 hl.1 with hsp | hsp
                · rw [hca] at hsp
                  rw [hsp] at hp
                  simpa using hp.1
                · rw [hdb] at hsp
                  rw [hsp] at hp
                  simpa using hp.2
              · simp [isPrefixL, hbd]
            · simp [isPrefixL, hac]
        rw [isInfixL, h1, h2]
        rfl

theorem classLambda_false (pats : List String)
    (hp : ∀ p ∈ pats, densePat p.data = true) (s : List Char) :
    classLambda pats s = false := by
  rw [classLambda]
  have h : pats.any (fun p => isInfixL p.data (lowerL (joinChars s))) = false := by
    rw [List.any_eq_false]
    intro p hmem
    simp [isInfixL_spaced_false p.data _ (hp p hmem) (spacedL_lower_joinChars s)]
  rw [h]
  simp

theorem classMatches_false (pats : List String)
    (hp : ∀ p ∈ pats, densePat p.data = true) (n : Node) :
    classMatches pats n = false := by
  cases n with
  | elem t cs r ch =>
    rw [classMatches, classLambda_false pats hp]
    have h : cs.any (fun cls => classLambda pats cls.data) = false := by
      rw [List.any_eq_false]
      intro cls hmem
      simp [classLambda_false pats hp cls.data]
    rw [h]
    rfl
  | text s => rfl
  | comment s => rfl

theorem isContentDiv_false (n : Node) : isContentDiv n = false := by
  rw [isContentDiv, classMatches_false contentClassPatterns (by decide) n]
  simp

mutual
theorem findN_none (p : Node → Bool) (hp : ∀ x, p x = false) (n : Node) :
    findN p n = none := by
  cases n with
  | elem t c r ch =>
    rw [findN, if_neg (by simp [hp])]
    exact findL_none p hp ch
  | text s => rw [findN, if_neg (by simp [hp])]
  | comment s => rw [findN, if_neg (by simp [hp])]

theorem findL_none (p : Node → Bool) (hp : ∀ x, p x = false) (ns : List Node) :
    findL p ns = none := by
  cases ns with
  | nil => rfl
  | cons n ns =>
    rw [findL, findN_none p hp n]
    exact findL_none p hp ns
end

/-- The program's fourth candidate is dead code: `find("div", class_=...)`
never matches anything. -/
theorem docFind_isContentDiv_none (d : Doc) : docFind isContentDiv d = none :=
  findL_none isContentDiv isContentDiv_false d.children

/-- Counterexample to C5 as stated: on a page whose body holds only a
`<div class="content">`, with no `main`, no `article` and no role=main,
the claim selects the content-classed div, but the program selects the
body — the content-div rule never matches under BeautifulSoup's
per-string invocation of the class lambda. -/
theorem claim_C5_counterexample :
    docFind specContentDiv (cleanedDoc exDocContentDiv) = some exDivContent
    ∧ docFind (isTagIn ["main"]) (cleanedDoc exDocContentDiv) = none
    ∧ docFind (isTagIn ["article"]) (cleanedDoc exDocContentDiv) = none
    ∧ docFind isRoleMain (cleanedDoc exDocContentDiv) = none
    ∧ extractNoSelector exDocContentDiv = [exBodyContent]
    ∧ extractNoSelector exDocContentDiv ≠ [exDivContent] := by
  refine ⟨rfl, rfl, rfl, rfl, rfl, ?_⟩
  intro h
  rw [show extractNoSelector exDocContentDiv = [exBodyContent] from rfl] at h
  simp only [exBodyContent, exDivContent] at h
  injection h with h1 h2
  injection h1 with t1 t2 t3 t4
  exact absurd t1 (by decide)

/-- Claim C5, amended: with no explicit selector, after cleanup the
extractor returns the first existing candidate in priority order —
`main`, else the first `article`, else an element with role=main, else
the document body, else the whole document.  The div-with-content-class
candidate is consulted between role=main and body but can never match:
BeautifulSoup calls the class lambda once per class string (and once on
the space-joined string), so its `" ".join(c)` intersperses spaces and
no pattern ever occurs. -/
theorem claim_C5 (d : Doc) :
    docFind isContentDiv (cleanedDoc d) = none
    ∧ (∀ n, docFind (isTagIn ["main"]) (cleanedDoc d) = some n →
        extractNoSelector d = [n])
    ∧ (docFind (isTagIn ["main"]) (cleanedDoc d) = none →
       ∀ n, docFind (isTagIn ["article"]) (cleanedDoc d) = some n →
        extractNoSelector d = [n])
    ∧ (docFind (isTagIn ["main"]) (cleanedDoc d) = none →
       docFind (isTagIn ["article"]) (cleanedDoc d) = none →
       ∀ n, docFind isRoleMain (cleanedDoc d) = some n →
        extractNoSelector d = [n])
    ∧ (docFind (isTagIn ["main"]) (cleanedDoc d) = none →
       docFind (isTagIn ["article"]) (cleanedDoc d) = none →
       docFind isRoleMain (cleanedDoc d) = none →
       ∀ n, docFind (isTagIn ["body"]) (cleanedDoc d) = some n →
        extractNoSelector d = [n])
    ∧ (docFind (isTagIn ["main"]) (cleanedDoc d) = none →
       docFind (isTagIn ["article"]) (cleanedDoc d) = none →
       docFind isRoleMain (cleanedDoc d) = none →
       docFind (isTagIn ["body"]) (cleanedDoc d) = none →
       extractNoSelector d = (cleanedDoc d).children) := by
  have hdead : docFind isContentDiv (cleanedDoc d) = none :=
    docFind_isContentDiv_none _
  refine ⟨hdead, ?_, ?_, ?_, ?_, ?_⟩
  · intro n h1
    rw [extractNoSelector, selectMain, h1]
  · intro h1 n h2
    rw [extractNoSelector, selectMain, h1, h2]
  · intro h1 h2 n h3
    rw [extractNoSelector, selectMain, h1, h2, h3]
  · intro h1 h2 h3 n h5
    rw [extractNoSelector, selectMain, h1, h2, h3, hdead, h5]
  · intro h1 h2 h3 h5
    rw [extractNoSelector, selectMain, h1, h2, h3, hdead, h5]

/-- Witness for C5: on the counterexample page the body is selected (the
content-classed div is skipped); on a page with a `main` element, `main`
is selected. -/
theorem claim_C5_witness :
    extractNoSelector exDocContentDiv = [exBodyContent]
    ∧ extractNoSelector exDocMain = [Node.elem "main" [] none [Node.text "hello"]] :=
  ⟨(claim_C5 exDocContentDiv).2.2.2.2.1 rfl rfl rfl exBodyContent rfl,
   (claim_C5 exDocMain).2.1 (Node.elem "main" [] none [Node.text "hello"]) rfl⟩

/-! ## Claim C6: extraction errors exactly on a missing explicit selector -/

/-- Claim C6: `clean_html` raises exactly when an explicit selector was
supplied and matches nothing; with no selector it always succeeds,
whatever structure the document lacks. -/
theorem claim_C6 (so : String → Doc → Option Node) (d : Doc) (sel : String) :
    (so sel d = none →
      clean_html so d (some sel)
        = .error ("Selector " ++ sel ++ " not found in page"))
    ∧ (∀ n, so sel d = some n → clean_html so d (some sel) = .ok [n])
    ∧ clean_html so d none = .ok (extractNoSelector d) := by
  refine ⟨?_, ?_, rfl⟩
  · intro h
    rw [clean_html, h]
  · intro n h
    rw [clean_html, h]

/-- Witness for C6: a selector engine that matches nothing makes
`clean_html` fail with the selector-not-found error, and the empty
document still extracts fine without a selector. -/
theorem claim_C6_witness :
    clean_html (fun _ _ => none) ⟨[]⟩ (some "article")
      = .error ("Selector " ++ "article" ++ " not found in page")
    ∧ clean_html (fun _ _ => none) ⟨[]⟩ none = .ok (extractNoSelector ⟨[]⟩) :=
  ⟨(claim_C6 (fun _ _ => none) ⟨[]⟩ "article").1 rfl,
   (claim_C6 (fun _ _ => none) ⟨[]⟩ "article").2.2⟩

/-! ## Claim C9: an explicit selector bypasses all cleanup -/

/-- Claim C9: when an explicit selector matches, `clean_html` returns the
subtree the selector engine found in the unmodified document — no
cleanup pass runs — so scripts, styles, navs, headers, footers and
comments inside the selected subtree are retained, as the fixture
`exSubDiv` (which keeps all of them) shows. -/
theorem claim_C9 (so : String → Doc → Option Node) (d : Doc) (sel : String)
    (n : Node) (h : so sel d = some n) :
    clean_html so d (some sel) = .ok [n]
    ∧ clean_html tagSelect exDocDiv (some "div") = .ok [exSubDiv]
    ∧ allL (fun x => !(extractorBanned x)) [exSubDiv] = false
    ∧ allL (fun x => !(isTagIn ["nav", "header", "footer"] x)) [exSubDiv] = false := by
  refine ⟨?_, rfl, rfl, rfl⟩
  rw [clean_html, h]

/-- Witness for C9: selecting `div` on the fixture page returns the div
subtree with its script, style, nav, header, footer and comment intact. -/
theorem claim_C9_witness :
    clean_html tagSelect exDocDiv (some "div") = .ok [exSubDiv] :=
  (claim_C9 tagSelect exDocDiv "div" exSubDiv rfl).1

/-! ## Lemmas about stripping at the character level -/

theorem rstripL_blank (l : List Char) (h : isBlankL l = true) : rstripL l = [] := by
  rw [isBlankL, List.all_eq_true] at h
  have hd : l.reverse.dropWhile pySpace = [] :=
    List.dropWhile_eq_nil_iff.2 (fun x hx => h x (List.mem_reverse.1 hx))
  rw [rstripL, hd, List.reverse_nil]

theorem rstripL_idem (l : List Char) : rstripL (rstripL l) = rstripL l := by
  rw [rstripL, rstripL, List.reverse_reverse, List.dropWhile_idempotent]

theorem lstripL_idem (l : List Char) : lstripL (lstripL l) = lstripL l :=
  List.dropWhile_idempotent _ _

theorem mem_rstripL {c : Char} {l : List Char} (h : c ∈ rstripL l) : c ∈ l := by
  rw [rstripL, List.mem_reverse] at h
  exact List.mem_reverse.1 ((List.dropWhile_sublist _).subset h)

theorem mem_lstripL {c : Char} {l : List Char} (h : c ∈ lstripL l) : c ∈ l :=
  (List.dropWhile_sublist _).subset h

theorem isBlankL_rstripL (l : List Char) : isBlankL (rstripL l) = isBlankL l := by
  cases hb : isBlankL l with
  | true => rw [rstripL_blank l hb]; rfl
  | false =>
    rw [isBlankL, List.all_eq_false] at hb ⊢
    obtain ⟨c, hc, hcp⟩ := hb
    refine ⟨c, ?_, hcp⟩
    have hc' : c ∈ l.reverse := List.mem_reverse.2 hc
    have hsplit := List.takeWhile_append_dropWhile pySpace l.reverse
    rw [← hsplit] at hc'
    rcases List.mem_append.1 hc' with h1 | h1
    · exact absurd (List.mem_takeWhile_imp h1) hcp
    · rw [rstripL]
      exact List.mem_reverse.2 h1

theorem isBlankL_lstripL (l : List Char) : isBlankL (lstripL l) = isBlankL l := by
  cases hb : isBlankL l with
  | true =>
    rw [isBlankL, List.all_eq_true] at hb ⊢
    intro x hx
    exact hb x (mem_lstripL hx)
  | false =>
    rw [isBlankL, List.all_eq_false] at hb ⊢
    obtain ⟨c, hc, hcp⟩ := hb
    have hsplit := List.takeWhile_append_dropWhile pySpace l
    rw [← hsplit] at hc
    rcases List.mem_append.1 hc with h1 | h1
    · exact absurd (List.mem_takeWhile_imp h1) hcp
    · exact ⟨c, h1, hcp⟩

theorem dropWhile_append_of_all (p : Char → Bool) (a b : List Char)
    (h : ∀ x ∈ a, p x = true) : (a ++ b).dropWhile p = b.dropWhile p := by
  rw [List.dropWhile_append]
  have ha : a.dropWhile p = [] := List.dropWhile_eq_nil_iff.2 h
  rw [ha]
  rfl

theorem dropWhile_append_of_ne (p : Char → Bool) (a b : List Char)
    (h : a.dropWhile p ≠ []) : (a ++ b).dropWhile p = a.dropWhile p ++ b := by
  rw [List.dropWhile_append]
  cases hd : a.dropWhile p with
  | nil => exact absurd hd h
  | cons x xs => rfl

theorem rstripL_append_blank (a b : List Char) (h : isBlankL b = true) :
    rstripL (a ++ b) = rstripL a := by
  rw [isBlankL, List.all_eq_true] at h
  rw [rstripL, List.reverse_append,
    dropWhile_append_of_all pySpace b.reverse a.reverse
      (fun x hx => h x (List.mem_reverse.1 hx))]
  rfl

theorem rstripL_append_of_ne (a X : List Char) (h : rstripL X ≠ []) :
    rstripL (a ++ X) = a ++ rstripL X := by
  have hne : X.reverse.dropWhile pySpace ≠ [] := by
    intro he
    rw [rstripL, he, List.reverse_nil] at h
    exact h rfl
  rw [rstripL, List.reverse_append, dropWhile_append_of_ne pySpace X.reverse a.reverse hne,
    List.reverse_append, List.reverse_reverse]
  rfl

theorem lstripL_append_blank (a X : List Char) (h : isBlankL a = true) :
    lstripL (a ++ X) = lstripL X := by
  rw [isBlankL, List.all_eq_true] at h
  exact dropWhile_append_of_all pySpace a X h

theorem lstripL_append_of_ne (a X : List Char) (h : lstripL a ≠ []) :
    lstripL (a ++ X) = lstripL a ++ X :=
  dropWhile_append_of_ne pySpace a X h

theorem rstripL_cons (c : Char) (r : List Char) :
    rstripL (c :: r) =
      if rstripL r = [] then (if pySpace c then [] else [c]) else c :: rstripL r := by
  have hrev : (c :: r).reverse = r.reverse ++ [c] := by simp
  rw [rstripL, hrev, List.dropWhile_append]
  cases hd : r.reverse.dropWhile pySpace with
  | nil =>
    have hr : rstripL r = [] := by rw [rstripL, hd]; rfl
    rw [hr]
    simp only [List.isEmpty_nil, if_true]
    cases hp : pySpace c with
    | true => simp [List.dropWhile, hp]
    | false => simp [List.dropWhile, hp]
  | cons x xs =>
    have hr : rstripL r ≠ [] := by
      rw [rstripL, hd]
      simp
    rw [if_neg hr]
    simp only [List.isEmpty_cons, Bool.false_eq_true, if_false]
    rw [List.reverse_append, rstripL, hd]
    rfl

theorem lstripL_cons (c : Char) (r : List Char) :
    lstripL (c :: r) = if pySpace c then lstripL r else c :: r := by
  rw [lstripL, List.dropWhile_cons]
  rfl

theorem lstrip_rstrip_comm (x : List Char) :
    lstripL (rstripL x) = rstripL (lstripL x) := by
  induction x with
  | nil => rfl
  | cons c r ih =>
    rw [rstripL_cons, lstripL_cons]
    cases hr : rstripL r with
    | nil =>
      rw [if_pos rfl]
      cases hp : pySpace c with
      | true =>
        simp only [hp, if_true]
        rw [← ih, hr]
      | false =>
        simp only [hp, Bool.false_eq_true, if_false]
        rw [lstripL_cons]
        simp only [hp, Bool.false_eq_true, if_false]
        rw [rstripL_cons, hr, if_pos rfl, if_neg]
        simp [hp]
    | cons y ys =>
      rw [if_neg (by simp)]
      cases hp : pySpace c with
      | true =>
        simp only [hp, if_true]
        rw [lstripL_cons, if_pos hp, ← ih, hr]
      | false =>
        simp only [hp, Bool.false_eq_true, if_false]
        rw [lstripL_cons, if_neg (by simp [hp]), rstripL_cons, hr, if_neg (by simp)]

theorem stripL_eq_lstrip_rstrip (l : List Char) : stripL l = lstripL (rstripL l) :=
  (lstrip_rstrip_comm l).symm

theorem stripL_blank (l : List Char) (h : isBlankL l = true) : stripL l = [] := by
  rw [stripL, rstripL_blank]
  rw [isBlankL_lstripL]
  exact h

theorem stripL_append_blank (a b : List Char) (h : isBlankL b = true) :
    stripL (a ++ b) = stripL a := by
  rw [stripL_eq_lstrip_rstrip, rstripL_append_blank a b h, ← stripL_eq_lstrip_rstrip]

theorem stripL_rstripL (x : List Char) : stripL (rstripL x) = stripL x := by
  rw [stripL_eq_lstrip_rstrip, rstripL_idem, ← stripL_eq_lstrip_rstrip]

theorem stripL_lstripL (x : List Char) : stripL (lstripL x) = stripL x := by
  rw [stripL, lstripL_idem]
  rfl

theorem stripL_idem (x : List Char) : stripL (stripL x) = stripL x := by
  calc stripL (stripL x) = stripL (rstripL (lstripL x)) := rfl
    _ = stripL (lstripL x) := stripL_rstripL _
    _ = stripL x := stripL_lstripL x

theorem rstripL_lstripL_of_rstripped (l : List Char) (h : rstripL l = l) :
    rstripL (lstripL l) = lstripL l := by
  have hc := lstrip_rstrip_comm l
  rw [h] at hc
  exact hc.symm

/-! ## Lemmas about `joinNl` and `splitNl` -/

theorem joinNl_cons (l : List Char) (ls : List (List Char)) (h : ls ≠ []) :
    joinNl (l :: ls) = l ++ '\n' :: joinNl ls := by
  cases ls with
  | nil => exact absurd rfl h
  | cons m ms => rfl

theorem joinNl_eq_nil_iff (M : List (List Char)) :
    joinNl M = [] ↔ M = [] ∨ M = [[]] := by
  cases M with
  | nil => simp [joinNl]
  | cons l ls =>
    cases ls with
    | nil => simp [joinNl]
    | cons m ms => simp [joinNl]

theorem isBlankL_joinNl_of_nil (M : List (List Char)) (h : ∀ l ∈ M, l = []) :
    isBlankL (joinNl M) = true := by
  induction M with
  | nil => rfl
  | cons l ls ih =>
    have hl : l = [] := h l (by simp)
    cases ls with
    | nil =>
      subst hl
      rfl
    | cons m ms =>
      subst hl
      rw [joinNl_cons _ _ (by simp), List.nil_append, isBlankL, List.all_cons]
      have hih := ih (fun x hx => h x (by simp [hx]))
      rw [isBlankL] at hih
      rw [hih]
      rfl

theorem splitNl_ne_nil (s : List Char) : splitNl s ≠ [] := by
  cases s with
  | nil => simp [splitNl]
  | cons c r =>
    cases h : (c == '\n') with
    | true => simp [splitNl, h]
    | false =>
      simp only [splitNl, h, Bool.false_eq_true, if_false]
      cases hr : splitNl r <;> simp

theorem splitNl_no_nl_mem (s : List Char) : ∀ l ∈ splitNl s, '\n' ∉ l := by
  induction s with
  | nil =>
    intro l hl
    simp [splitNl] at hl
    simp [hl]
  | cons c r ih =>
    intro l hl
    by_cases h : c = '\n'
    · subst h
      rw [splitNl, if_pos (by simp)] at hl
      rcases List.mem_cons.1 hl with h1 | h1
      · simp [h1]
      · exact ih l h1
    · have hc : (c == '\n') = false := by simp [h]
      rw [splitNl] at hl
      simp only [hc, Bool.false_eq_true, if_false] at hl
      cases hr : splitNl r with
      | nil => exact absurd hr (splitNl_ne_nil r)
      | cons x xs =>
        rw [hr] at hl
        rcases List.mem_cons.1 hl with h1 | h1
        · subst h1
          intro hmem
          rcases List.mem_cons.1 hmem with h2 | h2
          · exact h h2.symm
          · exact ih x (hr ▸ List.mem_cons_self x xs) h2
        · exact ih l (hr ▸ List.mem_cons_of_mem x h1)

theorem splitNl_no_nl_single (l : List Char) (h : '\n' ∉ l) : splitNl l = [l] := by
  induction l with
  | nil => rfl
  | cons c r ih =>
    have hc : (c == '\n') = false := by
      simp only [beq_eq_false_iff_ne, ne_eq]
      intro he
      exact h (by simp [he])
    simp only [splitNl, hc, Bool.false_eq_true, if_false]
    rw [ih (fun hr => h (List.mem_cons_of_mem c hr))]

theorem splitNl_append_cons_nl (a z : List Char) (h : '\n' ∉ a) :
    splitNl (a ++ '\n' :: z) = a :: splitNl z := by
  induction a with
  | nil => simp [splitNl]
  | cons c r ih =>
    have hc : (c == '\n') = false := by
      simp only [beq_eq_false_iff_ne, ne_eq]
      intro he
      exact h (by simp [he])
    have hr : '\n' ∉ r := fun hx => h (List.mem_cons_of_mem c hx)
    simp only [List.cons_append, splitNl, hc, Bool.false_eq_true, if_false,
      List.append_eq]
    rw [ih hr]

theorem joinNl_splitNl (s : List Char) : joinNl (splitNl s) = s := by
  induction s with
  | nil => rfl
  | cons c r ih =>
    by_cases h : c = '\n'
    · subst h
      have hs : splitNl ('\n' :: r) = [] :: splitNl r := by
        rw [splitNl, if_pos (by simp)]
      rw [hs, joinNl_cons _ _ (splitNl_ne_nil r), List.nil_append, ih]
    · have hc : (c == '\n') = false := by simp [h]
      simp only [splitNl, hc, Bool.false_eq_true, if_false]
      cases hr : splitNl r with
      | nil => exact absurd hr (splitNl_ne_nil r)
      | cons x xs =>
        rw [hr] at ih
        cases xs with
        | nil =>
          simp only [joinNl] at ih ⊢
          rw [ih]
        | cons y ys =>
          rw [joinNl_cons _ _ (by simp), List.cons_append,
            ← joinNl_cons x (y :: ys) (by simp), ih]

theorem splitNl_joinNl (M : List (List Char)) (hM : ∀ l ∈ M, '\n' ∉ l)
    (h : M ≠ []) : splitNl (joinNl M) = M := by
  induction M with
  | nil => exact absurd rfl h
  | cons l ls ih =>
    cases ls with
    | nil => exact splitNl_no_nl_single l (hM l (by simp))
    | cons m ms =>
      rw [joinNl_cons _ _ (by simp),
        splitNl_append_cons_nl _ _ (hM l (by simp)),
        ih (fun x hx => hM x (by simp [hx])) (by simp)]

theorem splitNl_append_nl (t : List Char) :
    splitNl (t ++ ['\n']) = splitNl t ++ [[]] := by
  induction t with
  | nil => rfl
  | cons c r ih =>
    by_cases h : c = '\n'
    · subst h
      simp only [List.cons_append, splitNl, beq_self_eq_true, if_true,
        List.append_eq, ih]
    · have hc : (c == '\n') = false := by simp [h]
      simp only [List.cons_append, splitNl, hc, Bool.false_eq_true, if_false,
        List.append_eq, ih]
      cases hr : splitNl r with
      | nil => exact absurd hr (splitNl_ne_nil r)
      | cons x xs => rfl

/-! ## Lemmas about the normalizer's line pass -/

theorem blank_rstripped_nil (l : List Char) (h1 : isBlankL l = true)
    (h2 : rstripL l = l) : l = [] := by
  rw [← h2]
  exact rstripL_blank l h1

theorem cleanLines_rstripped (b : Bool) (L : List (List Char)) :
    ∀ l ∈ cleanLines b L, rstripL l = l := by
  induction L generalizing b with
  | nil =>
    intro l hl
    simp [cleanLines] at hl
  | cons x xs ih =>
    intro l hl
    rw [cleanLines] at hl
    by_cases hb : (isBlankL x && b) = true
    · rw [if_pos hb] at hl
      exact ih b l hl
    · rw [if_neg hb] at hl
      rcases List.mem_cons.1 hl with h1 | h1
      · rw [h1]
        exact rstripL_idem x
      · exact ih (isBlankL x) l h1

theorem cleanLines_true_eq (L : List (List Char)) :
    cleanLines true L = cleanLines false (L.dropWhile isBlankL) := by
  induction L with
  | nil => rfl
  | cons x xs ih =>
    by_cases hb : isBlankL x = true
    · rw [cleanLines, if_pos (by simp [hb]), List.dropWhile_cons, if_pos hb, ih]
    · have hb' : isBlankL x = false := by simpa using hb
      rw [cleanLines, if_neg (by simp [hb']), List.dropWhile_cons, if_neg (by simp [hb']),
        cleanLines, if_neg (by simp [hb'])]

theorem headNonBlank_cleanLines_true (L : List (List Char)) :
    headNonBlank (cleanLines true L) = true := by
  induction L with
  | nil => rfl
  | cons x xs ih =>
    by_cases hb : isBlankL x = true
    · rw [cleanLines, if_pos (by simp [hb])]
      exact ih
    · have hb' : isBlankL x = false := by simpa using hb
      rw [cleanLines, if_neg (by simp [hb']), headNonBlank, isBlankL_rstripL, hb']
      rfl

theorem noAdjBlank_cons (x : List Char) (R : List (List Char))
    (h : noAdjBlank R = true)
    (hx : isBlankL x = false ∨ headNonBlank R = true) :
    noAdjBlank (x :: R) = true := by
  cases R with
  | nil => rfl
  | cons r rs =>
    rw [noAdjBlank, Bool.and_eq_true]
    refine ⟨?_, h⟩
    rcases hx with h1 | h1
    · simp [h1]
    · rw [headNonBlank, Bool.not_eq_true'] at h1
      simp [h1]

theorem noAdjBlank_cleanLines (b : Bool) (L : List (List Char)) :
    noAdjBlank (cleanLines b L) = true := by
  induction L generalizing b with
  | nil => rfl
  | cons x xs ih =>
    by_cases hb : (isBlankL x && b) = true
    · rw [cleanLines, if_pos hb]
      exact ih b
    · rw [cleanLines, if_neg hb]
      by_cases hx : isBlankL x = true
      · rw [hx]
        exact noAdjBlank_cons _ _ (ih true) (Or.inr (headNonBlank_cleanLines_true xs))
      · have hx' : isBlankL x = false := by simpa using hx
        rw [hx']
        exact noAdjBlank_cons _ _ (ih false)
          (Or.inl (by rw [isBlankL_rstripL, hx']))

theorem cleanLines_false_cons_ne_nil (x : List Char) (xs : List (List Char)) :
    cleanLines false (x :: xs) ≠ [] := by
  rw [cleanLines, if_neg (by simp)]
  simp

theorem noAdjBlank_tail (x : List Char) (R : List (List Char))
    (h : noAdjBlank (x :: R) = true) : noAdjBlank R = true := by
  cases R with
  | nil => rfl
  | cons r rs =>
    rw [noAdjBlank, Bool.and_eq_true] at h
    exact h.2

theorem noAdjBlank_append_left (A B : List (List Char))
    (h : noAdjBlank (A ++ B) = true) : noAdjBlank A = true := by
  induction A with
  | nil => rfl
  | cons x xs ih =>
    cases xs with
    | nil => rfl
    | cons y ys =>
      rw [List.cons_append, List.cons_append, noAdjBlank, Bool.and_eq_true] at h
      rw [noAdjBlank, Bool.and_eq_true]
      exact ⟨h.1, ih h.2⟩

theorem noAdjBlank_suffix (A B : List (List Char))
    (h : noAdjBlank (A ++ B) = true) : noAdjBlank B = true := by
  induction A with
  | nil => exact h
  | cons x xs ih =>
    rw [List.cons_append] at h
    exact ih (noAdjBlank_tail x _ h)

theorem noAdjBlank_dropWhile (p : List Char → Bool) (L : List (List Char))
    (h : noAdjBlank L = true) : noAdjBlank (L.dropWhile p) = true := by
  obtain ⟨A, hA⟩ := List.dropWhile_suffix (l := L) p
  rw [← hA] at h
  exact noAdjBlank_suffix A _ h

/-! ## Lemmas about `dropEndBlanks` -/

theorem dropEndBlanks_eq_nil_iff (M : List (List Char)) :
    dropEndBlanks M = [] ↔ ∀ l ∈ M, isBlankL l = true := by
  induction M with
  | nil => simp [dropEndBlanks]
  | cons l ls ih =>
    rw [dropEndBlanks]
    cases hd : dropEndBlanks ls with
    | nil =>
      constructor
      · intro he
        by_cases hb : isBlankL l = true
        · intro x hx
          rcases List.mem_cons.1 hx with h1 | h1
          · rw [h1]
            exact hb
          · exact ih.1 hd x h1
        · rw [if_neg hb] at he
          exact absurd he (by simp)
      · intro hall
        rw [if_pos (hall l (by simp))]
    | cons r rs =>
      constructor
      · intro he
        exact absurd he (by simp)
      · intro hall
        have h2 : ∀ x ∈ ls, isBlankL x = true :=
          fun x hx => hall x (List.mem_cons_of_mem l hx)
        rw [ih.2 h2] at hd
        exact absurd hd (by simp)

theorem dropEndBlanks_prefix (M : List (List Char)) : dropEndBlanks M <+: M := by
  induction M with
  | nil => exact List.prefix_refl _
  | cons l ls ih =>
    rw [dropEndBlanks]
    cases hd : dropEndBlanks ls with
    | nil =>
      by_cases hb : isBlankL l = true
      · rw [if_pos hb]
        exact List.nil_prefix
      · rw [if_neg hb]
        exact ⟨ls, rfl⟩
    | cons r rs =>
      rw [hd] at ih
      exact (List.cons_prefix_cons).2 ⟨rfl, ih⟩

theorem dropEndBlanks_last (M : List (List Char)) :
    ∀ l, (dropEndBlanks M).getLast? = some l → isBlankL l = false := by
  induction M with
  | nil =>
    intro l h
    simp [dropEndBlanks] at h
  | cons x xs ih =>
    intro l h
    rw [dropEndBlanks] at h
    cases hd : dropEndBlanks xs with
    | nil =>
      rw [hd] at h
      by_cases hb : isBlankL x = true
      · rw [if_pos hb] at h
        simp at h
      · rw [if_neg hb] at h
        simp only [List.getLast?_singleton, Option.some.injEq] at h
        rw [← h]
        simpa using hb
    | cons r rs =>
      rw [hd] at h
      rw [List.getLast?_cons_cons] at h
      exact ih l (by rw [hd]; exact h)

/-- Right-stripping a joined document drops exactly the trailing blank
lines, when every line is already right-stripped. -/
theorem rstrip_joinNl (M : List (List Char)) (hM : ∀ l ∈ M, rstripL l = l) :
    rstripL (joinNl M) = joinNl (dropEndBlanks M) := by
  induction M with
  | nil => rfl
  | cons l ls ih =>
    rw [dropEndBlanks]
    cases hd : dropEndBlanks ls with
    | nil =>
      have hblank : ∀ x ∈ ls, isBlankL x = true := (dropEndBlanks_eq_nil_iff ls).1 hd
      have hnil : ∀ x ∈ ls, x = [] := fun x hx =>
        blank_rstripped_nil x (hblank x hx) (hM x (List.mem_cons_of_mem l hx))
      by_cases hb : isBlankL l = true
      · rw [if_pos hb]
        have hl : l = [] := blank_rstripped_nil l hb (hM l (by simp))
        have hj : isBlankL (joinNl (l :: ls)) = true := by
          apply isBlankL_joinNl_of_nil
          intro x hx
          rcases List.mem_cons.1 hx with h1 | h1
          · rw [h1, hl]
          · exact hnil x h1
        rw [rstripL_blank _ hj]
        rfl
      · rw [if_neg hb]
        cases ls with
        | nil => simpa [joinNl] using hM l (by simp)
        | cons m ms =>
          rw [joinNl_cons _ _ (by simp)]
          have hX : isBlankL (joinNl (m :: ms)) = true :=
            isBlankL_joinNl_of_nil _ (fun x hx => hnil x hx)
          have hsuf : isBlankL ('\n' :: joinNl (m :: ms)) = true := by
            rw [isBlankL, List.all_cons]
            rw [isBlankL] at hX
            rw [hX]
            decide
          rw [rstripL_append_blank _ _ hsuf, hM l (by simp)]
          rfl
    | cons r rs =>
      have hls : ls ≠ [] := by
        intro he
        subst he
        simp [dropEndBlanks] at hd
      have hih : rstripL (joinNl ls) = joinNl (dropEndBlanks ls) :=
        ih (fun x hx => hM x (List.mem_cons_of_mem l hx))
      have hne : rstripL (joinNl ls) ≠ [] := by
        rw [hih, hd]
        intro he
        rw [joinNl_eq_nil_iff] at he
        rcases he with h1 | h1
        · exact absurd h1 (by simp)
        · have h2 : r = [] ∧ rs = [] := by
            injection h1 with ha hb
            exact ⟨ha, hb⟩
          have h3 : isBlankL r = false := by
            apply dropEndBlanks_last ls r
            rw [hd, h2.2]
            rfl
          rw [h2.1] at h3
          exact absurd h3 (by decide)
      rw [joinNl_cons _ _ hls, joinNl_cons _ _ (by simp),
        show l ++ '\n' :: joinNl ls = (l ++ ['\n']) ++ joinNl ls by simp,
        rstripL_append_of_ne _ _ hne, hih, hd]
      simp

/-- Left-stripping a joined document drops the leading blank lines and
left-strips the first surviving line, when every line is already
right-stripped. -/
theorem lstrip_joinNl (N : List (List Char)) (hN : ∀ l ∈ N, rstripL l = l) :
    lstripL (joinNl N) = joinNl (lstripHead (N.dropWhile isBlankL)) := by
  induction N with
  | nil => rfl
  | cons l ls ih =>
    by_cases hb : isBlankL l = true
    · have hl : l = [] := blank_rstripped_nil l hb (hN l (by simp))
      subst hl
      rw [List.dropWhile_cons, if_pos hb]
      cases ls with
      | nil => rfl
      | cons m ms =>
        rw [joinNl_cons _ _ (by simp), List.nil_append, lstripL_cons,
          if_pos (by decide)]
        exact ih (fun x hx => hN x (by simp [hx]))
    · have hb' : isBlankL l = false := by simpa using hb
      rw [List.dropWhile_cons, if_neg (by simp [hb']), lstripHead]
      have hlne : lstripL l ≠ [] := by
        intro he
        rw [lstripL, List.dropWhile_eq_nil_iff] at he
        have : isBlankL l = true := by
          rw [isBlankL, List.all_eq_true]
          exact he
        rw [this] at hb'
        exact absurd hb' (by simp)
      cases ls with
      | nil => rfl
      | cons m ms =>
        rw [joinNl_cons l (m :: ms) (by simp),
          lstripL_append_of_ne _ _ hlne,
          joinNl_cons (lstripL l) (m :: ms) (by simp)]

/-- The source loop computes exactly the spec's collapse followed by the
per-line right-trim. -/
theorem cleanLines_eq_collapse (L : List (List Char)) :
    cleanLines false L = (collapseRuns L).map rstripL := by
  induction L with
  | nil => rfl
  | cons l ls ih =>
    cases ls with
    | nil =>
      rw [cleanLines, if_neg (by simp), cleanLines]
      rfl
    | cons m ms =>
      by_cases hl : isBlankL l = true
      · by_cases hm : isBlankL m = true
        · rw [collapseRuns, if_pos (by simp [hl, hm]), ← ih,
            cleanLines, if_neg (by simp), hl, rstripL_blank l hl]
          conv =>
            rhs
            rw [cleanLines, if_neg (by simp), hm, rstripL_blank m hm]
          rw [cleanLines, if_pos (by simp [hm])]
        · have hm' : isBlankL m = false := by simpa using hm
          rw [collapseRuns, if_neg (by simp [hm']), List.map_cons, ← ih,
            cleanLines, if_neg (by simp), hl]
          conv =>
            lhs
            rw [cleanLines, if_neg (by simp [hm'])]
          conv =>
            rhs
            rw [cleanLines, if_neg (by simp)]
      · have hl' : isBlankL l = false := by simpa using hl
        rw [collapseRuns, if_neg (by simp [hl']), List.map_cons, ← ih,
          cleanLines, if_neg (by simp), hl']

/-- Stripping leading and trailing blank lines before joining does not
change the stripped joined document, when lines are right-stripped. -/
theorem stripBlankEdges_strip (M : List (List Char))
    (hM : ∀ l ∈ M, rstripL l = l) :
    stripL (joinNl (stripBlankEdges M)) = stripL (joinNl M) := by
  have hN : ∀ l ∈ M.dropWhile isBlankL, rstripL l = l :=
    fun l hl => hM l ((List.dropWhile_sublist _).subset hl)
  rw [stripBlankEdges, ← rstrip_joinNl _ hN, stripL_rstripL]
  have h1 := lstrip_joinNl M hM
  have h2 := lstrip_joinNl (M.dropWhile isBlankL) hN
  rw [List.dropWhile_idempotent] at h2
  show rstripL (lstripL (joinNl (M.dropWhile isBlankL))) = rstripL (lstripL (joinNl M))
  rw [h1, h2]

/-! ## Claim C7: the normalizer against the spec's wording -/

/-- Counterexample to C7 as stated: on the input `" a"` the source
normalizer also strips the leading whitespace of the first line (the
final `.strip()` removes all leading/trailing whitespace of the joined
document, not only blank lines), so its output differs from the spec's
step-by-step contract. -/
theorem claim_C7_counterexample :
    ¬ (normalizeL [' ', 'a'] = specNormalizeL [' ', 'a']) := by decide

/-- Claim C7, amended: the normalizer collapses every run of two or more
blank lines to one, right-trims every surviving line, strips leading and
trailing blank lines, additionally strips all remaining leading and
trailing whitespace of the joined document, and ends with exactly one
trailing line break. -/
theorem claim_C7 (s : List Char) : normalizeL s = amendedNormalizeL s := by
  rw [normalizeL, amendedNormalizeL, cleanLines_eq_collapse]
  have hM : ∀ l ∈ (collapseRuns (splitNl s)).map rstripL, rstripL l = l := by
    intro l hl
    rcases List.mem_map.1 hl with ⟨x, _, hxe⟩
    rw [← hxe]
    exact rstripL_idem x
  rw [stripBlankEdges_strip _ hM]

/-! ## Towards idempotence of the normalizer -/

theorem cleanLines_no_nl (b : Bool) (L : List (List Char))
    (hL : ∀ l ∈ L, '\n' ∉ l) : ∀ l ∈ cleanLines b L, '\n' ∉ l := by
  induction L generalizing b with
  | nil =>
    intro l hl
    simp [cleanLines] at hl
  | cons x xs ih =>
    intro l hl
    rw [cleanLines] at hl
    by_cases hb : (isBlankL x && b) = true
    · rw [if_pos hb] at hl
      exact ih b (fun y hy => hL y (List.mem_cons_of_mem x hy)) l hl
    · rw [if_neg hb] at hl
      rcases List.mem_cons.1 hl with h1 | h1
      · rw [h1]
        intro hmem
        exact hL x (by simp) (mem_rstripL hmem)
      · exact ih (isBlankL x) (fun y hy => hL y (List.mem_cons_of_mem x hy)) l h1

theorem dropWhile_head_false {α : Type} (p : α → Bool) (L : List α) (h : α)
    (t : List α) (he : L.dropWhile p = h :: t) : p h = false := by
  induction L with
  | nil => simp at he
  | cons x xs ih =>
    rw [List.dropWhile_cons] at he
    by_cases hp : p x = true
    · rw [if_pos hp] at he
      exact ih he
    · rw [if_neg (by simp [hp])] at he
      injection he with h1 _
      rw [← h1]
      simpa using hp

theorem noAdjBlank_head_congr (x y : List Char) (R : List (List Char))
    (h : isBlankL x = isBlankL y) : noAdjBlank (x :: R) = noAdjBlank (y :: R) := by
  cases R with
  | nil => rfl
  | cons r rs =>
    rw [noAdjBlank, noAdjBlank, h]

theorem joinNl_append_nil (K : List (List Char)) (h : K ≠ []) :
    joinNl (K ++ [[]]) = joinNl K ++ ['\n'] := by
  induction K with
  | nil => exact absurd rfl h
  | cons x xs ih =>
    cases xs with
    | nil => rfl
    | cons y ys =>
      rw [List.cons_append, joinNl_cons x ((y :: ys) ++ [[]]) (by simp),
        ih (by simp), joinNl_cons x (y :: ys) (by simp)]
      simp

theorem noAdjBlank_append_single (K : List (List Char))
    (hadj : noAdjBlank K = true)
    (hlast : ∀ l, K.getLast? = some l → isBlankL l = false) :
    noAdjBlank (K ++ [[]]) = true := by
  induction K with
  | nil => rfl
  | cons x xs ih =>
    cases xs with
    | nil =>
      have hx : isBlankL x = false := hlast x (by simp)
      simp [noAdjBlank, hx]
    | cons y ys =>
      have h1 : noAdjBlank (x :: y :: ys) = true := hadj
      rw [noAdjBlank, Bool.and_eq_true] at h1
      have h2 := ih h1.2 (fun l hl => hlast l (by rw [List.getLast?_cons_cons]; exact hl))
      show noAdjBlank (x :: ((y :: ys) ++ [[]])) = true
      rw [show (y :: ys) ++ [[]] = y :: (ys ++ [[]]) from rfl, noAdjBlank,
        Bool.and_eq_true]
      exact ⟨h1.1, h2⟩

/-- The source loop is the identity on already-clean line lists: lines
right-stripped, no two adjacent blanks, and (when the previous-line flag
is set) a non-blank first line. -/
theorem cleanLines_id (L : List (List Char)) (hr : ∀ l ∈ L, rstripL l = l)
    (hadj : noAdjBlank L = true) (b : Bool)
    (hb : b = true → headNonBlank L = true) : cleanLines b L = L := by
  induction L generalizing b with
  | nil => rfl
  | cons x xs ih =>
    by_cases hx : isBlankL x = true
    · have hbf : b = false := by
        cases b with
        | false => rfl
        | true =>
          have := hb rfl
          rw [headNonBlank, hx] at this
          exact absurd this (by simp)
      subst hbf
      have hh : headNonBlank xs = true := by
        cases xs with
        | nil => rfl
        | cons y ys =>
          rw [noAdjBlank, Bool.and_eq_true] at hadj
          have h1 := hadj.1
          rw [hx] at h1
          rw [headNonBlank]
          simpa using h1
      rw [cleanLines, if_neg (by simp), hr x (by simp), hx,
        ih (fun l hl => hr l (List.mem_cons_of_mem x hl)) (noAdjBlank_tail x xs hadj)
          true (fun _ => hh)]
    · have hx' : isBlankL x = false := by simpa using hx
      rw [cleanLines, if_neg (by simp [hx']), hr x (by simp), hx',
        ih (fun l hl => hr l (List.mem_cons_of_mem x hl)) (noAdjBlank_tail x xs hadj)
          false (by simp)]

/-- Characterization of the normalizer's core output: stripping the
joined clean lines yields either the empty text or a join of a clean,
non-empty line list with a non-blank last line. -/
theorem normalized_core (M : List (List Char))
    (hr : ∀ l ∈ M, rstripL l = l)
    (hnl : ∀ l ∈ M, '\n' ∉ l)
    (hadj : noAdjBlank M = true) :
    stripL (joinNl M) = [] ∨
    (∃ K : List (List Char), K ≠ [] ∧
      stripL (joinNl M) = joinNl K ∧
      (∀ l ∈ K, rstripL l = l) ∧ (∀ l ∈ K, '\n' ∉ l) ∧
      noAdjBlank K = true ∧
      (∀ l, K.getLast? = some l → isBlankL l = false)) := by
  have hpre := dropEndBlanks_prefix M
  have hN0r : ∀ l ∈ dropEndBlanks M, rstripL l = l := fun l hl => hr l (hpre.subset hl)
  have hN0nl : ∀ l ∈ dropEndBlanks M, '\n' ∉ l := fun l hl => hnl l (hpre.subset hl)
  have hN0adj : noAdjBlank (dropEndBlanks M) = true := by
    obtain ⟨C, hC⟩ := hpre
    rw [← hC] at hadj
    exact noAdjBlank_append_left _ _ hadj
  have hN0last := dropEndBlanks_last M
  have hT : stripL (joinNl M) = joinNl (lstripHead ((dropEndBlanks M).dropWhile isBlankL)) := by
    rw [stripL_eq_lstrip_rstrip, rstrip_joinNl M hr, lstrip_joinNl _ hN0r]
  have hsub : ∀ x ∈ (dropEndBlanks M).dropWhile isBlankL, x ∈ dropEndBlanks M :=
    fun x hx => (List.dropWhile_sublist _).subset hx
  cases hN1e : (dropEndBlanks M).dropWhile isBlankL with
  | nil =>
    left
    rw [hT, hN1e]
    rfl
  | cons h t =>
    right
    refine ⟨lstripL h :: t, by simp, ?_, ?_, ?_, ?_, ?_⟩
    · rw [hT, hN1e]
      rfl
    · intro l hl
      rcases List.mem_cons.1 hl with h1 | h1
      · rw [h1]
        exact rstripL_lstripL_of_rstripped h (hN0r h (hsub h (by rw [hN1e]; simp)))
      · exact hN0r l (hsub l (by rw [hN1e]; simp [h1]))
    · intro l hl
      rcases List.mem_cons.1 hl with h1 | h1
      · rw [h1]
        intro hmem
        exact hN0nl h (hsub h (by rw [hN1e]; simp)) (mem_lstripL hmem)
      · exact hN0nl l (hsub l (by rw [hN1e]; simp [h1]))
    · have hN1adj : noAdjBlank ((dropEndBlanks M).dropWhile isBlankL) = true :=
        noAdjBlank_dropWhile _ _ hN0adj
      rw [hN1e] at hN1adj
      rw [noAdjBlank_head_congr _ h _ (isBlankL_lstripL h)]
      exact hN1adj
    · intro l hl
      cases t with
      | nil =>
        simp only [List.getLast?_singleton, Option.some.injEq] at hl
        rw [← hl, isBlankL_lstripL]
        exact dropWhile_head_false isBlankL (dropEndBlanks M) h [] hN1e
      | cons u us =>
        rw [List.getLast?_cons_cons] at hl
        obtain ⟨A, hA⟩ := List.dropWhile_suffix (l := dropEndBlanks M) isBlankL
        apply hN0last l
        rw [← hA, List.getLast?_append_of_ne_nil A (by rw [hN1e]; simp), hN1e,
          List.getLast?_cons_cons]
        exact hl

/-! ## Claim C8: the normalizer is idempotent -/

/-- Claim C8: for every input, normalizing the normalizer's output
returns it unchanged. -/
theorem claim_C8 (s : List Char) : normalizeL (normalizeL s) = normalizeL s := by
  have hr := cleanLines_rstripped false (splitNl s)
  have hnl := cleanLines_no_nl false (splitNl s) (splitNl_no_nl_mem s)
  have hadj := noAdjBlank_cleanLines false (splitNl s)
  rcases normalized_core (cleanLines false (splitNl s)) hr hnl hadj with
    h0 | ⟨K, hKne, hjoin, hKr, hKnl, hKadj, hKlast⟩
  · have h1 : normalizeL s = ['\n'] := by
      rw [normalizeL, h0]
      rfl
    rw [h1]
    decide
  · have ht : normalizeL s = joinNl K ++ ['\n'] := by
      rw [normalizeL, hjoin]
    rw [ht, normalizeL, splitNl_append_nl, splitNl_joinNl K hKnl hKne,
      cleanLines_id (K ++ [[]])
        (by
          intro l hl
          rcases List.mem_append.1 hl with h1 | h1
          · exact hKr l h1
          · simp at h1
            rw [h1]
            rfl)
        (noAdjBlank_append_single K hKadj hKlast) false (by simp),
      joinNl_append_nil K hKne, stripL_append_blank _ _ (by decide),
      ← hjoin, stripL_idem, hjoin]

/-! ## Lemmas for the link truncator -/

theorem takeWhile_app_all {α : Type} (p : α → Bool) (l z : List α)
    (hl : ∀ x ∈ l, p x = true) : (l ++ z).takeWhile p = l ++ z.takeWhile p := by
  induction l with
  | nil => rfl
  | cons a as ih =>
    rw [List.cons_append, List.takeWhile_cons, if_pos (hl a (by simp)),
      List.cons_append, ih (fun x hx => hl x (by simp [hx]))]

theorem dropWhile_app_all {α : Type} (p : α → Bool) (l z : List α)
    (hl : ∀ x ∈ l, p x = true) : (l ++ z).dropWhile p = z.dropWhile p := by
  induction l with
  | nil => rfl
  | cons a as ih =>
    rw [List.cons_append, List.dropWhile_cons, if_pos (hl a (by simp)),
      ih (fun x hx => hl x (by simp [hx]))]

theorem takeWhile_app_stop {α : Type} (p : α → Bool) (l : List α) (a : α)
    (z : List α) (hl : ∀ x ∈ l, p x = true) (ha : p a = false) :
    (l ++ a :: z).takeWhile p = l := by
  rw [takeWhile_app_all p l _ hl, List.takeWhile_cons, if_neg (by simp [ha]),
    List.append_nil]

theorem dropWhile_app_stop {α : Type} (p : α → Bool) (l : List α) (a : α)
    (z : List α) (hl : ∀ x ∈ l, p x = true) (ha : p a = false) :
    (l ++ a :: z).dropWhile p = a :: z := by
  rw [dropWhile_app_all p l _ hl, List.dropWhile_cons, if_neg (by simp [ha])]

/-- `parseLink` recognises a rendered plain link and returns exactly its
parts and the untouched remainder. -/
theorem parseLink_noTitle (txt u rest : List Char)
    (htxt : ∀ x ∈ txt, (x == ']') = false)
    (hu : u ≠ []) (huc : ∀ c ∈ u, urlChar c = true) :
    ∃ pf, parseLink (txt ++ ']' :: '(' :: (u ++ ')' :: rest))
      = some (txt, u, none, ⟨rest, pf⟩) := by
  have h1 : (txt ++ ']' :: '(' :: (u ++ ')' :: rest)).takeWhile (fun c => !(c == ']'))
      = txt :=
    takeWhile_app_stop _ txt ']' _ (fun x hx => by simp [htxt x hx]) (by simp)
  have h2 : (txt ++ ']' :: '(' :: (u ++ ')' :: rest)).dropWhile (fun c => !(c == ']'))
      = ']' :: '(' :: (u ++ ')' :: rest) :=
    dropWhile_app_stop _ txt ']' _ (fun x hx => by simp [htxt x hx]) (by simp)
  have h3 : (u ++ ')' :: rest).takeWhile urlChar = u :=
    takeWhile_app_stop _ u ')' _ huc (by decide)
  have h4 : (u ++ ')' :: rest).dropWhile urlChar = ')' :: rest :=
    dropWhile_app_stop _ u ')' _ huc (by decide)
  have hue : u.isEmpty = false := by
    cases u with
    | nil => exact absurd rfl hu
    | cons a as => rfl
  refine ⟨?_, ?_⟩
  · simp only [List.length_append, List.length_cons]
    omega
  · simp only [parseLink]
    split
    all_goals rename_i heq
    · rename_i r2
      rw [h2] at heq
      injection heq with ha hb
      injection hb with hb hc
      subst hc
      split
      all_goals rename_i heq2
      · rename_i r4
        rw [h4] at heq2
        injection heq2 with hd he
        subst he
        rw [if_neg (by rw [h3, hue]; simp)]
        simp [h1, h3]
      · rename_i r5
        rw [h4] at heq2
        simp at heq2
      · rename_i hA
        exact absurd h4 (hA rest)
    · exact absurd h2 (heq (u ++ ')' :: rest))

/-- `parseLink` recognises a rendered titled link and returns exactly its
parts, the title verbatim, and the untouched remainder. -/
theorem parseLink_title (txt u t rest : List Char)
    (htxt : ∀ x ∈ txt, (x == ']') = false)
    (hu : u ≠ []) (huc : ∀ c ∈ u, urlChar c = true)
    (ht : ∀ x ∈ t, (x == '"') = false) :
    ∃ pf, parseLink (txt ++ ']' :: '(' :: (u ++ ' ' :: '"' :: (t ++ '"' :: ')' :: rest)))
      = some (txt, u, some t, ⟨rest, pf⟩) := by
  have h1 : (txt ++ ']' :: '(' :: (u ++ ' ' :: '"' :: (t ++ '"' :: ')' :: rest))).takeWhile
      (fun c => !(c == ']')) = txt :=
    takeWhile_app_stop _ txt ']' _ (fun x hx => by simp [htxt x hx]) (by simp)
  have h2 : (txt ++ ']' :: '(' :: (u ++ ' ' :: '"' :: (t ++ '"' :: ')' :: rest))).dropWhile
      (fun c => !(c == ']')) = ']' :: '(' :: (u ++ ' ' :: '"' :: (t ++ '"' :: ')' :: rest)) :=
    dropWhile_app_stop _ txt ']' _ (fun x hx => by simp [htxt x hx]) (by simp)
  have h3 : (u ++ ' ' :: '"' :: (t ++ '"' :: ')' :: rest)).takeWhile urlChar = u :=
    takeWhile_app_stop _ u ' ' _ huc (by decide)
  have h4 : (u ++ ' ' :: '"' :: (t ++ '"' :: ')' :: rest)).dropWhile urlChar
      = ' ' :: '"' :: (t ++ '"' :: ')' :: rest) :=
    dropWhile_app_stop _ u ' ' _ huc (by decide)
  have h5 : (t ++ '"' :: ')' :: rest).takeWhile (fun c => !(c == '"')) = t :=
    takeWhile_app_stop _ t '"' _ (fun x hx => by simp [ht x hx]) (by simp)
  have h6 : (t ++ '"' :: ')' :: rest).dropWhile (fun c => !(c == '"'))
      = '"' :: ')' :: rest :=
    dropWhile_app_stop _ t '"' _ (fun x hx => by simp [ht x hx]) (by simp)
  have hue : u.isEmpty = false := by
    cases u with
    | nil => exact absurd rfl hu
    | cons a as => rfl
  refine ⟨?_, ?_⟩
  · simp only [List.length_append, List.length_cons]
    omega
  · simp only [parseLink]
    split
    all_goals rename_i heq
    · rename_i r2
      rw [h2] at heq
      injection heq with ha hb
      injection hb with hb hc
      subst hc
      split
      all_goals rename_i heq2
      · rename_i r4
        rw [h4] at heq2
        simp at heq2
      · rename_i r5
        rw [h4] at heq2
        injection heq2 with hd he
        injection he with he hf
        subst hf
        rw [if_neg (by rw [h3, hue]; simp)]
        split
        all_goals rename_i heq3
        · rename_i r7
          rw [h6] at heq3
          injection heq3 with hg hh
          injection hh with hh hi
          subst hi
          simp [h1, h3, h5]
        · exact absurd h6 (heq3 rest)
      · exact absurd h4 (heq2 (t ++ '"' :: ')' :: rest))
    · exact absurd h2 (heq (u ++ ' ' :: '"' :: (t ++ '"' :: ')' :: rest)))

theorem scanLinks_nil (m : Nat) : scanLinks m [] = [] := by
  simp only [scanLinks]

theorem scanLinks_raw (m : Nat) (s rest : List Char)
    (hs : ∀ c ∈ s, (c == '[') = false) :
    scanLinks m (s ++ rest) = s ++ scanLinks m rest := by
  induction s with
  | nil => rfl
  | cons c cs ih =>
    rw [List.cons_append]
    rw [scanLinks]
    rw [if_neg (by simp [hs c (by simp)])]
    rw [ih (fun x hx => hs x (by simp [hx])), List.cons_append]

/-- The truncator transforms every link of a well-formed document
independently, altering only URLs longer than the maximum. -/
theorem scanLinks_segs (m : Nat) (segs : List Seg) (hwf : wfDoc segs = true) :
    scanLinks m (renderDocSegs segs) = renderDocSegs (segs.map (truncSeg m)) := by
  induction segs with
  | nil => simp [renderDocSegs, scanLinks_nil]
  | cons seg rest ih =>
    rw [wfDoc, List.all_cons, Bool.and_eq_true] at hwf
    have h1 := hwf.1
    have h2 : wfDoc rest = true := hwf.2
    cases seg with
    | raw s =>
      rw [wfSeg, List.all_eq_true] at h1
      simp only [renderDocSegs, List.map_cons, List.flatten_cons, renderSeg, truncSeg]
      rw [show (List.map renderSeg rest).flatten = renderDocSegs rest from rfl,
        scanLinks_raw m s _ (fun c hc => by simpa using h1 c hc), ih h2]
      rfl
    | link txt u ttl =>
      simp only [wfSeg, Bool.and_eq_true] at h1
      obtain ⟨⟨⟨htxt, hune⟩, hurl⟩, httl⟩ := h1
      rw [List.all_eq_true] at htxt
      rw [List.all_eq_true] at hurl
      have htxt' : ∀ x ∈ txt, (x == ']') = false := fun x hx => by simpa using htxt x hx
      have hu : u ≠ [] := by
        intro he
        subst he
        simp at hune
      cases ttl with
      | none =>
        obtain ⟨pf, hp⟩ := parseLink_noTitle txt u (renderDocSegs rest) htxt' hu hurl
        have hshape : renderDocSegs (Seg.link txt u none :: rest)
            = '[' :: (txt ++ ']' :: '(' :: (u ++ ')' :: renderDocSegs rest)) := by
          simp [renderDocSegs, renderSeg, renderLink]
        rw [hshape, scanLinks, if_pos (by simp), hp]
        show renderLink txt (truncUrl m u) none ++ scanLinks m (renderDocSegs rest)
          = renderDocSegs ((Seg.link txt u none :: rest).map (truncSeg m))
        rw [ih h2]
        simp [renderDocSegs, renderSeg, truncSeg]
      | some t =>
        have ht' : ∀ x ∈ t, (x == '"') = false := by
          rw [List.all_eq_true] at httl
          intro x hx
          simpa using httl x hx
        obtain ⟨pf, hp⟩ := parseLink_title txt u t (renderDocSegs rest) htxt' hu hurl ht'
        have hshape : renderDocSegs (Seg.link txt u (some t) :: rest)
            = '[' :: (txt ++ ']' :: '(' ::
                (u ++ ' ' :: '"' :: (t ++ '"' :: ')' :: renderDocSegs rest))) := by
          simp [renderDocSegs, renderSeg, renderLink]
        rw [hshape, scanLinks, if_pos (by simp), hp]
        show renderLink txt (truncUrl m u) (some t) ++ scanLinks m (renderDocSegs rest)
          = renderDocSegs ((Seg.link txt u (some t) :: rest).map (truncSeg m))
        rw [ih h2]
        simp [renderDocSegs, renderSeg, truncSeg]

/-! ## Claim C1: the link truncator -/

/-- Claim C1 (spec-modelled; the truncator's implementation is absent
from the source tree): on any well-formed document of text and inline
links, `truncate_markdown_links` rewrites every link whose URL exceeds
the maximum display length (default 42) to its first `max_length - 1`
characters plus one ellipsis, keeps shorter URLs, link texts, titles and
all surrounding text verbatim, handles each link independently, and
leaves link-free documents unchanged. -/
theorem claim_C1 (m : Nat) (segs : List Seg) (h : wfDoc segs = true) :
    truncate_markdown_links m ⟨renderDocSegs segs⟩
      = ⟨renderDocSegs (segs.map (truncSeg m))⟩ := by
  rw [truncate_markdown_links]
  exact congrArg String.mk (scanLinks_segs m segs h)

/-- Witness for C1: the spec §8 example link at maximum length 20. -/
theorem claim_C1_witness :
    wfDoc exSegs = true ∧
    truncate_markdown_links 20 ⟨renderDocSegs exSegs⟩
      = ⟨renderDocSegs (exSegs.map (truncSeg 20))⟩ :=
  ⟨by decide, claim_C1 20 exSegs (by decide)⟩

/-- The spec §8 example, end to end: at maximum length 20 the example
link becomes 19 URL characters plus the ellipsis. -/
theorem truncate_markdown_links_example :
    truncate_markdown_links 20
      "[Link](https://example.com/very/long/path/to/some/resource?param=value)"
      = "[Link](https://example.com…)" := by
  have h1 : "[Link](https://example.com/very/long/path/to/some/resource?param=value)".data
      = renderDocSegs exSegs := by decide
  have h2 : renderDocSegs (exSegs.map (truncSeg 20))
      = "[Link](https://example.com…)".data := by decide
  rw [truncate_markdown_links, h1, scanLinks_segs 20 exSegs (by decide), h2]
